import Mathlib

/-!
Verification of the workflow runner in `backend/workflow_runner.py`
(class `WorkflowRunner`): the topological ordering of workflow graphs
(`build_execution_graph`), node-input resolution (`get_node_inputs` and the
global-input fallback in `execute_workflow`), the overall run loop
(`execute_workflow`), and the pure action executors (`execute_file_operation`,
`execute_delay`, `format_as_table`, the `output` branch of `execute_node`).

Python values flowing through node configurations and outputs are embedded as
the inductive type `Value`; Python `dict`s (insertion ordered, first-match
lookup, in-place overwrite on existing keys) are embedded as association lists
with the operations `pdGet`, `pdSet`, `pdUpdate`.  Exceptions are embedded as
`Except`: `Except.error` corresponds to a raised Python exception, `Except.ok`
to a normal return.
-/

mutual

/-- Embedded Python values (the fragment the workflow runner manipulates).
Lists and dicts nested inside a value are carried by the mutually inductive
`ValueList` and `ValueDict` so that every recursion over values is
structural. -/
inductive Value where
  | str (s : String)
  | int (n : Int)
  | bool (b : Bool)
  | list (items : ValueList)
  | dict (entries : ValueDict)
  | none
deriving DecidableEq

/-- A Python list nested inside a `Value`. -/
inductive ValueList where
  | nil
  | cons (head : Value) (tail : ValueList)
deriving DecidableEq

/-- A Python dict nested inside a `Value` (string keys, insertion order). -/
inductive ValueDict where
  | nil
  | cons (key : String) (val : Value) (tail : ValueDict)
deriving DecidableEq

end

/-- View of a nested list as a Lean list. -/
def ValueList.toList : ValueList → List Value
  | .nil => []
  | .cons v rest => v :: rest.toList

/-- Build a nested list from a Lean list. -/
def ValueList.ofList : List Value → ValueList
  | [] => .nil
  | v :: rest => .cons v (ValueList.ofList rest)

/-- View of a nested dict as an association list. -/
def ValueDict.toList : ValueDict → List (String × Value)
  | .nil => []
  | .cons k v rest => (k, v) :: rest.toList

/-- Build a nested dict from an association list. -/
def ValueDict.ofList : List (String × Value) → ValueDict
  | [] => .nil
  | (k, v) :: rest => .cons k v (ValueDict.ofList rest)

/-- A Python list value from a Lean list. -/
def vlist (l : List Value) : Value := .list (ValueList.ofList l)

/-- A Python dict value from an association list. -/
def vdict (l : List (String × Value)) : Value := .dict (ValueDict.ofList l)

/-- A Python `dict` with `String` keys: an insertion-ordered association list.
All dictionaries built by the embedded code have duplicate-free keys. -/
abbrev PyDict (β : Type) : Type := List (String × β)

/-- Python `d[k]` / `d.get(k)`: the value at the first matching key. -/
def pdGet {β : Type} : PyDict β → String → Option β
  | [], _ => Option.none
  | (k, v) :: rest, x => if k = x then some v else pdGet rest x

/-- Python `d[k] = v`: overwrite the value in place if the key is present
(keeping its position), otherwise append the new entry at the end. -/
def pdSet {β : Type} : PyDict β → String → β → PyDict β
  | [], k, v => [(k, v)]
  | (k0, v0) :: rest, k, v =>
    if k0 = k then (k0, v) :: rest else (k0, v0) :: pdSet rest k v

/-- The keys of a dict, in insertion order (Python iteration order). -/
def pdKeys {β : Type} (d : PyDict β) : List String := d.map Prod.fst

/-- Python `d.update(other)`: write every entry of `other` into `d`,
in iteration order, overwriting on key collision. -/
def pdUpdate {β : Type} (d other : PyDict β) : PyDict β :=
  other.foldl (fun acc kv => pdSet acc kv.1 kv.2) d

/-- Sum of the positive parts of an integer-valued dict; the termination
measure of Kahn's queue loop. -/
def pdSumPos (d : PyDict Int) : Nat := (d.map (fun kv => kv.2.toNat)).sum

/-- Insert a key into a key list the way a Python dict does: keep it in place
if already present, append it otherwise. -/
def keyInsert (ks : List String) (k : String) : List String :=
  if k ∈ ks then ks else ks ++ [k]

/-- The distinct elements of a list, in first-occurrence order: the key list
of a dict built by assigning each element in turn. -/
def firstDedup (l : List String) : List String := l.foldl keyInsert []

/-- Simplified Python `repr` of a string (quote with apostrophes; escape
sequences inside the string body are not modelled). -/
def pyQuote (s : String) : String := "\x27" ++ s ++ "\x27"

mutual

/-- Python `repr` on embedded values. -/
def pyRepr : Value → String
  | .str s => pyQuote s
  | .int n => toString n
  | .bool b => cond b "True" "False"
  | .none => "None"
  | .list xs => "[" ++ pyReprItems xs ++ "]"
  | .dict kvs => "\x7b" ++ pyReprEntries kvs ++ "\x7d"

/-- Comma-joined `repr`s of the elements of a nested list. -/
def pyReprItems : ValueList → String
  | .nil => ""
  | .cons v .nil => pyRepr v
  | .cons v rest => pyRepr v ++ ", " ++ pyReprItems rest

/-- Comma-joined `key: value` `repr`s of the entries of a nested dict. -/
def pyReprEntries : ValueDict → String
  | .nil => ""
  | .cons k v .nil => pyQuote k ++ ": " ++ pyRepr v
  | .cons k v rest => pyQuote k ++ ": " ++ pyRepr v ++ ", " ++ pyReprEntries rest

end

/-- Python `str`: the string itself on strings, `repr`-style otherwise. -/
def pyStr : Value → String
  | .str s => s
  | v => pyRepr v

/-- Python truthiness test `not v` (used by `if not file_path`). -/
def pyFalsy : Value → Bool
  | .str s => s = ""
  | .int n => n = 0
  | .bool b => !b
  | .list .nil => true
  | .list (.cons _ _) => false
  | .dict .nil => true
  | .dict (.cons _ _ _) => false
  | .none => true

/-- JSON string literal (escape sequences not modelled). -/
def jsonStr (s : String) : String := "\"" ++ s ++ "\""

/-- `n` spaces. -/
def jsonPad (n : Nat) : String := String.mk (List.replicate n ' ')

mutual

/-- Python `json.dumps(v, indent=2)`; the first argument is the current
indentation level. -/
def jsonV : Nat → Value → String
  | _, .str s => jsonStr s
  | _, .int n => toString n
  | _, .bool b => cond b "true" "false"
  | _, .none => "null"
  | _, .list .nil => "[]"
  | _, .dict .nil => "\x7b\x7d"
  | ind, .list xs => "[\n" ++ jsonItems ind xs ++ "\n" ++ jsonPad ind ++ "]"
  | ind, .dict kvs => "\x7b\n" ++ jsonEntries ind kvs ++ "\n" ++ jsonPad ind ++ "\x7d"

/-- The ",\n"-joined, indented serializations of a nested list's elements. -/
def jsonItems : Nat → ValueList → String
  | _, .nil => ""
  | ind, .cons v .nil => jsonPad (ind + 2) ++ jsonV (ind + 2) v
  | ind, .cons v rest =>
    jsonPad (ind + 2) ++ jsonV (ind + 2) v ++ ",\n" ++ jsonItems ind rest

/-- The ",\n"-joined, indented serializations of a nested dict's entries. -/
def jsonEntries : Nat → ValueDict → String
  | _, .nil => ""
  | ind, .cons k v .nil => jsonPad (ind + 2) ++ jsonStr k ++ ": " ++ jsonV (ind + 2) v
  | ind, .cons k v rest =>
    jsonPad (ind + 2) ++ jsonStr k ++ ": " ++ jsonV (ind + 2) v ++ ",\n" ++
      jsonEntries ind rest

end

/-- `json.dumps(v, indent=2)` as called by the `output` node. -/
def json_dumps_indent2 (v : Value) : String := jsonV 0 v

/-- A workflow edge: the `source` and `target` node ids of the edge dict. -/
structure Edge where
  source : String
  target : String
deriving DecidableEq

/-- A workflow node: its `id`, `type`, and `data` payload (holding `config`
and similar entries). -/
structure Node where
  id : String
  type : String
  data : PyDict Value

/-- The Python exceptions `build_execution_graph` can raise. -/
inductive PyError where
  | keyError (key : String)
  | valueError (msg : String)
deriving DecidableEq

/-- `str(e)` of an exception caught by `execute_workflow`. -/
def pyErrStr : PyError → String
  | .keyError k => "\x27" ++ k ++ "\x27"
  | .valueError m => m

/-- The message of the `ValueError` raised on the failed length check of
`build_execution_graph`. -/
def cycleMsg : String := "Workflow contains cycles and cannot be executed"

/-- The initialization loop of `build_execution_graph`: for each node,
`graph[node_id] = []` and `in_degree[node_id] = 0`. -/
def initDicts (nodes : List Node) : PyDict (List String) × PyDict Int :=
  nodes.foldl (fun gd n => (pdSet gd.1 n.id [], pdSet gd.2 n.id 0)) ([], [])

/-- The edge loop of `build_execution_graph`: for each edge, if the source is
a known node, append the target to `graph[source]` and increment
`in_degree[target]`; the increment raises `KeyError` if the target is not a
key of `in_degree`. -/
def addEdges (g : PyDict (List String)) (d : PyDict Int) :
    List Edge → Except PyError (PyDict (List String) × PyDict Int)
  | [] => .ok (g, d)
  | e :: rest =>
    match pdGet g e.source with
    | some lst =>
      match pdGet d e.target with
      | some v => addEdges (pdSet g e.source (lst ++ [e.target])) (pdSet d e.target (v + 1)) rest
      | Option.none => .error (.keyError e.target)
    | Option.none => addEdges g d rest

/-- The inner `for neighbor in graph[current]` loop of Kahn's algorithm:
decrement `in_degree[neighbor]` and append the neighbor to the queue when its
in-degree reaches zero. -/
def processNeighbors (inDeg : PyDict Int) (queue : List String) :
    List String → Except PyError (PyDict Int × List String)
  | [] => .ok (inDeg, queue)
  | nb :: rest =>
    match pdGet inDeg nb with
    | some v =>
      processNeighbors (pdSet inDeg nb (v - 1))
        (if v - 1 = 0 then queue ++ [nb] else queue) rest
    | Option.none => .error (.keyError nb)

/-- The `while queue` loop of Kahn's algorithm: pop the queue front, append it
to the execution order and process its neighbors.  The loop is fuelled; the
fuel `queue.length + pdSumPos inDeg` supplied by `build_execution_graph` is
proved sufficient (each iteration strictly decreases that measure), so the
fuel-exhaustion branch is unreachable there. -/
def kahnLoop (graph : PyDict (List String)) :
    Nat → PyDict Int → List String → List String → Except PyError (List String)
  | _, _, [], order => .ok order
  | 0, _, _ :: _, _ => .error (.valueError "loop fuel exhausted")
  | fuel + 1, inDeg, current :: rest, order =>
    match pdGet graph current with
    | some nbs =>
      match processNeighbors inDeg rest nbs with
      | .ok dq => kahnLoop graph fuel dq.1 dq.2 (order ++ [current])
      | .error e => .error e
    | Option.none => .error (.keyError current)

/-- `build_execution_graph(nodes, edges)`: initialize the adjacency and
in-degree dicts, process the edges, seed the queue with the zero-in-degree
node ids in dict order, run Kahn's algorithm, and raise the cycle
`ValueError` when the produced order does not cover every node. -/
def build_execution_graph (nodes : List Node) (edges : List Edge) :
    Except PyError (List String) :=
  let gd := initDicts nodes
  match addEdges gd.1 gd.2 edges with
  | .error e => .error e
  | .ok gd2 =>
    let queue := (gd2.2.filter (fun kv => kv.2 == (0 : Int))).map Prod.fst
    match kahnLoop gd2.1 (queue.length + pdSumPos gd2.2) gd2.2 queue [] with
    | .error e => .error e
    | .ok order =>
      if order.length ≠ nodes.length then .error (.valueError cycleMsg)
      else .ok order

/-- `execute_file_operation(config)`.  The filesystem is abstracted by
`fs : String → Option String` giving the readable content at a path; the
mutation performed by `write`/`append` is outside the pure model (only their
return values and raising behaviour are embedded).  A failed `aiofiles.open`
for `read` raises `FileNotFoundError`, which the `except` clause logs and
re-raises. -/
def execute_file_operation (fs : String → Option String) (config : PyDict Value) :
    Except String Value :=
  let operation := (pdGet config "operation").getD (.str "read")
  let file_path := (pdGet config "filePath").getD (.str "")
  if pyFalsy file_path then .error "File path is required for file operations"
  else
    match operation with
    | .str op =>
      if op = "read" then
        match file_path with
        | .str p =>
          match fs p with
          | some text => .ok (.str text)
          | Option.none => .error ("[Errno 2] No such file or directory: \x27" ++ p ++ "\x27")
        | _ => .error "TypeError: invalid file path"
      else if op = "write" then
        match file_path with
        | .str p => .ok (.str ("File written successfully to " ++ p))
        | _ => .error "TypeError: invalid file path"
      else if op = "append" then
        match file_path with
        | .str p => .ok (.str ("Content appended successfully to " ++ p))
        | _ => .error "TypeError: invalid file path"
      else if op = "exists" then
        match file_path with
        | .str p => .ok (.bool (fs p).isSome)
        | _ => .error "TypeError: invalid file path"
      else .error ("Unknown file operation: " ++ op)
    | other => .error ("Unknown file operation: " ++ pyStr other)

/-- `execute_delay(config)`: read `delaySeconds` (default `1`), suspend via
`asyncio.sleep` (which accepts any real duration, sleeping zero time for
non-positive values, and raises `TypeError` on non-numeric ones), and return
the completion message.  The suspension itself has no observable effect in the
pure model. -/
def execute_delay (config : PyDict Value) : Except String Value :=
  let delay_seconds := (pdGet config "delaySeconds").getD (.int 1)
  match delay_seconds with
  | .int n => .ok (.str ("Delayed for " ++ toString n ++ " seconds"))
  | .bool b => .ok (.str ("Delayed for " ++ (cond b "True" "False") ++ " seconds"))
  | _ => .error "TypeError: an invalid duration for sleep"

/-- A line of `n` dashes, as produced by `"-" * n`. -/
def dashes (n : Nat) : String := String.mk (List.replicate n (Char.ofNat 45))

/-- One table row: `[str(row.get(header, "")) for header in headers]`;
raises `AttributeError` when the row is not a mapping. -/
def rowOf (headers : List String) (row : Value) : Except String (List String) :=
  match row with
  | .dict rd => .ok (headers.map (fun h => pyStr ((pdGet rd.toList h).getD (.str ""))))
  | _ => .error "AttributeError: object has no attribute get"

/-- All table rows, in order. -/
def rowsOf (headers : List String) : List Value → Except String (List (List String))
  | [] => .ok []
  | r :: rest =>
    match rowOf headers r with
    | .ok cells =>
      match rowsOf headers rest with
      | .ok more => .ok (cells :: more)
      | .error e => .error e
    | .error e => .error e

/-- `format_as_table(data)`: when the data is a nonempty list whose first
element is a mapping, emit the header row of the first mapping's keys, a
separator line of dashes as long as the header line (newline included), and
one row per element, all columns joined by " | "; otherwise fall back to
`str(data)`. -/
def format_as_table (data : Value) : Except String String :=
  match data with
  | .list (.cons first restRows) =>
    match first with
    | .dict d0 =>
      let headers := pdKeys d0.toList
      match rowsOf headers (Value.dict d0 :: restRows.toList) with
      | .ok rows =>
        let headerLine := String.intercalate " | " headers ++ "\n"
        let table := headerLine ++ dashes headerLine.length ++ "\n"
        .ok (rows.foldl (fun t r => t ++ String.intercalate " | " r ++ "\n") table)
      | .error e => .error e
    | _ => .ok (pyStr data)
  | _ => .ok (pyStr data)

/-- Whether a value takes the table branch of `format_as_table`
(`isinstance(data, list) and len(data) > 0 and isinstance(data[0], dict)`). -/
def tableShape : Value → Bool
  | .list (.cons (.dict _) _) => true
  | _ => false

/-- The `output` branch of `execute_node`: read the configured `format`
(default "raw") and the input's `value` (default ""), and render it as JSON,
as a table, or by plain string conversion. -/
def execute_output (node_config : PyDict Value) (input_data : PyDict Value) :
    Except String String :=
  let output_format := (pdGet node_config "format").getD (.str "raw")
  let output_value := (pdGet input_data "value").getD (.str "")
  match output_format with
  | .str f =>
    if f = "json" then .ok (json_dumps_indent2 output_value)
    else if f = "table" then format_as_table output_value
    else .ok (pyStr output_value)
  | _ => .ok (pyStr output_value)

/-- `get_node_inputs(node_id, edges)`: fold over the edge list, and for every
edge targeting this node whose source already has a stored output, merge that
output into the inputs (`inputs.update(...)`, later edges overwriting earlier
ones on key collision). -/
def get_node_inputs (node_outputs : PyDict (PyDict Value)) (node_id : String)
    (edges : List Edge) : PyDict Value :=
  edges.foldl
    (fun inputs e =>
      if e.target = node_id then
        match pdGet node_outputs e.source with
        | some out => pdUpdate inputs out
        | Option.none => inputs
      else inputs)
    []

/-- The input-resolution step of the `execute_workflow` loop: the merged
upstream outputs, or a copy of the run's global input when they are empty
(`if not node_inputs`). -/
def resolve_node_inputs (node_outputs : PyDict (PyDict Value)) (node_id : String)
    (edges : List Edge) (input_data : PyDict Value) : PyDict Value :=
  let node_inputs := get_node_inputs node_outputs node_id edges
  if node_inputs.isEmpty then input_data else node_inputs

/-- Modelled from the spec (claim C3's reading of input resolution): the merge,
in edge-list order with later edges overwriting earlier ones, of the stored
outputs of the nodes with an edge targeting this node; the run's global input
when no edge targets it. -/
def spec_resolved_input (node_outputs : PyDict (PyDict Value)) (node_id : String)
    (edges : List Edge) (input_data : PyDict Value) : PyDict Value :=
  let ups := edges.filter (fun e => e.target == node_id)
  if ups.isEmpty then input_data
  else ups.foldl (fun acc e => pdUpdate acc ((pdGet node_outputs e.source).getD [])) []

/-- `node_lookup = {node["id"]: node for node in nodes}`. -/
def mkLookup (nodes : List Node) : PyDict Node :=
  nodes.foldl (fun d n => pdSet d n.id n) []

/-- The result dict of `execute_workflow`: the `status: success` shape with
output, node outputs and execution order, or the `status: failed` shape with
the error message and the node outputs accumulated so far. -/
inductive RunResult where
  | success (output : Value) (node_outputs : PyDict (PyDict Value))
      (execution_order : List String)
  | failed (error : String) (node_outputs : PyDict (PyDict Value))

/-- The `for node_id in execution_order` loop of `execute_workflow`,
parametrized by the node executor `ex` (abstracting the effectful
`execute_node`): look the node up, resolve its inputs, execute it, and store
its output as `{"value": result}`; the first raised error aborts the loop,
carrying the outputs accumulated so far. -/
def execLoop (ex : Node → PyDict Value → Except String Value) (lookup : PyDict Node)
    (edges : List Edge) (input_data : PyDict Value) :
    PyDict (PyDict Value) → List String →
      Except (String × PyDict (PyDict Value)) (PyDict (PyDict Value))
  | outs, [] => .ok outs
  | outs, nid :: rest =>
    match pdGet lookup nid with
    | some node =>
      match ex node (resolve_node_inputs outs nid edges input_data) with
      | .ok r => execLoop ex lookup edges input_data (pdSet outs nid [("value", r)]) rest
      | .error msg => .error (msg, outs)
    | Option.none => .error ("\x27" ++ nid ++ "\x27", outs)

/-- `execute_workflow(nodes, edges, input_data)`: build the execution order,
run the node loop, and read the final output from the last node of the order
(`execution_order[-1]`, an `IndexError` with message "list index out of range"
on an empty order); any exception is caught and reported as a failed run with
the node outputs accumulated so far. -/
def execute_workflow (ex : Node → PyDict Value → Except String Value)
    (nodes : List Node) (edges : List Edge) (input_data : PyDict Value) : RunResult :=
  match build_execution_graph nodes edges with
  | .error e => .failed (pyErrStr e) []
  | .ok order =>
    match execLoop ex (mkLookup nodes) edges input_data [] order with
    | .error mo => .failed mo.1 mo.2
    | .ok outs =>
      match order.getLast? with
      | Option.none => .failed "list index out of range" outs
      | some last =>
        .success ((pdGet ((pdGet outs last).getD []) "value").getD Value.none) outs order

/-- Adjacency list of a node id in the built graph dict. -/
def nbsOf (G : PyDict (List String)) (s : String) : List String :=
  (pdGet G s).getD []

/-- Multiplicity of the graph edge `s → t` in the adjacency dict. -/
def outM (G : PyDict (List String)) (s t : String) : Nat := (nbsOf G s).count t

/-- Number of graph edges into `t` whose source has not yet been emitted into
`done`: the value Kahn's loop keeps in `in_degree[t]`. -/
def pend (G : PyDict (List String)) (done : List String) (t : String) : Nat :=
  ∑ s ∈ ((pdKeys G).toFinset.filter (fun s => s ∉ done)), outM G s t

/-- The loop invariant of Kahn's algorithm, over the in-degree dict, the
queue, and the order emitted so far. -/
def KahnInv (G : PyDict (List String)) (D : PyDict Int) (queue order : List String) : Prop :=
  pdKeys D = pdKeys G ∧
  (order ++ queue).Nodup ∧
  (∀ x ∈ order ++ queue, x ∈ pdKeys G) ∧
  (∀ i ∈ pdKeys G, pdGet D i = some (pend G order i : Int)) ∧
  (∀ i ∈ pdKeys G, i ∉ order → (pend G order i = 0 ↔ i ∈ queue)) ∧
  (∀ i ∈ order, pend G order i = 0) ∧
  (∀ j t, order.get? j = some t → ∀ s, 0 < outM G s t →
    ∃ k, k < j ∧ order.get? k = some s)

/-- The relation "there is an edge from `a` to `b` in the edge list". -/
def edgeStep (edges : List Edge) (a b : String) : Prop :=
  ∃ e ∈ edges, e.source = a ∧ e.target = b

deriving instance DecidableEq for Except

/-- A bare action node with the given id. -/
def mkN (i : String) : Node := ⟨i, "action", []⟩

/-- The two-column example value of the table-format claim:
`[{a: 1, b: 2}, {a: 3, b: 4}]`. -/
def tableExample : Value :=
  vlist [vdict [("a", .int 1), ("b", .int 2)], vdict [("a", .int 3), ("b", .int 4)]]

/-- A three-node chain `A → B → C` (nodes). -/
def chainNodes : List Node := [mkN "A", mkN "B", mkN "C"]

/-- A three-node chain `A → B → C` (edges). -/
def chainEdges : List Edge := [⟨"A", "B"⟩, ⟨"B", "C"⟩]

/-- A rank function certifying that the chain `A → B → C` is acyclic. -/
def chainRank (s : String) : Nat := if s = "A" then 0 else if s = "B" then 1 else 2

/-- Two nodes `A`, `B`. -/
def pairNodes : List Node := [mkN "A", mkN "B"]

/-- The two-cycle `A → B → A`. -/
def cycleEdges : List Edge := [⟨"A", "B"⟩, ⟨"B", "A"⟩]

/-- Two distinct nodes sharing the id `A`. -/
def dupNodes : List Node := [mkN "A", ⟨"A", "input", []⟩]

/-- A filesystem with no readable files. -/
def emptyFs : String → Option String := fun _ => Option.none

/-- A `file_operation` config reading a missing path. -/
def readMissingCfg : PyDict Value := [("operation", .str "read"), ("filePath", .str "missing.txt")]

/-- A `delay` config with a negative duration. -/
def delayNegCfg : PyDict Value := [("delaySeconds", .int (-5))]

/-- Stored outputs of two upstream nodes, for the input-resolution claim. -/
def upOuts : PyDict (PyDict Value) :=
  [("n1", [("value", Value.int 1)]), ("n2", [("value", Value.int 2)])]

/-- Two edges `n1 → n3`, `n2 → n3`. -/
def upEdges : List Edge := [⟨"n1", "n3"⟩, ⟨"n2", "n3"⟩]

/-- A global run input, for the input-resolution claim. -/
def globalInput : PyDict Value := [("g", Value.int 9)]

/-- A two-node workflow `n1 → n2` whose second node fails. -/
def failNodes : List Node := [⟨"n1", "input", []⟩, ⟨"n2", "action", []⟩]

/-- The edge `n1 → n2` of the failing workflow. -/
def failEdges : List Edge := [⟨"n1", "n2"⟩]

/-- A node executor failing exactly on node `n2` with message "boom" and
returning the string "one" elsewhere. -/
def failOnN2 : Node → PyDict Value → Except String Value :=
  fun nd _ => if nd.id = "n2" then .error "boom" else .ok (.str "one")

/-- The outputs accumulated before `n2` fails. -/
def outsBeforeFail : PyDict (PyDict Value) := [("n1", [("value", Value.str "one")])]

theorem pdGet_set {β : Type} (d : PyDict β) (k : String) (v : β) (x : String) :
    pdGet (pdSet d k v) x = if k = x then some v else pdGet d x := by
  induction d with
  | nil => simp [pdSet, pdGet]
  | cons hd tl ih =>
    obtain ⟨k0, v0⟩ := hd
    by_cases h1 : k0 = k
    · subst h1
      by_cases h2 : k0 = x <;> simp [pdSet, pdGet, h2]
    · by_cases h2 : k0 = x
      · subst h2
        have hkx : ¬ k = k0 := fun h => h1 h.symm
        simp [pdSet, pdGet, h1, hkx]
      · simp [pdSet, pdGet, h1, h2, ih]

theorem pdKeys_set {β : Type} (d : PyDict β) (k : String) (v : β) :
    pdKeys (pdSet d k v) = keyInsert (pdKeys d) k := by
  induction d with
  | nil => simp [pdSet, pdKeys, keyInsert]
  | cons hd tl ih =>
    obtain ⟨k0, v0⟩ := hd
    by_cases h1 : k0 = k
    · subst h1
      simp [pdSet, pdKeys, keyInsert]
    · have hne : ¬ k = k0 := fun h => h1 h.symm
      have hstep : pdKeys (pdSet ((k0, v0) :: tl) k v) = k0 :: pdKeys (pdSet tl k v) := by
        simp [pdSet, h1, pdKeys]
      rw [hstep, ih]
      by_cases h2 : k ∈ pdKeys tl
      · have hmem : k ∈ k0 :: List.map Prod.fst tl := by
          simp only [pdKeys] at h2
          exact List.mem_cons_of_mem k0 h2
        simp only [keyInsert, pdKeys] at h2 ⊢
        simp only [List.map_cons]
        rw [if_pos h2, if_pos hmem]
      · have hmem : k ∉ k0 :: List.map Prod.fst tl := by
          simp only [pdKeys] at h2
          simp [hne, h2]
        simp only [keyInsert, pdKeys] at h2 ⊢
        simp only [List.map_cons]
        rw [if_neg h2, if_neg hmem]
        simp

theorem pdGet_isSome_iff {β : Type} (d : PyDict β) (x : String) :
    (pdGet d x).isSome ↔ x ∈ pdKeys d := by
  induction d with
  | nil => simp [pdGet, pdKeys]
  | cons hd tl ih =>
    obtain ⟨k0, v0⟩ := hd
    have hkeys : pdKeys ((k0, v0) :: tl) = k0 :: pdKeys tl := by simp [pdKeys]
    rw [hkeys]
    by_cases h : k0 = x
    · subst h
      simp [pdGet]
    · have hne : ¬ x = k0 := fun hx => h hx.symm
      simp [pdGet, h, ih, List.mem_cons, hne]

theorem pdGet_eq_none_of_not_mem {β : Type} {d : PyDict β} {x : String}
    (h : x ∉ pdKeys d) : pdGet d x = Option.none := by
  cases hg : pdGet d x with
  | none => rfl
  | some v =>
    exact absurd ((pdGet_isSome_iff d x).mp (by simp [hg])) h

theorem mem_pdKeys_of_pdGet {β : Type} {d : PyDict β} {x : String} {v : β}
    (h : pdGet d x = some v) : x ∈ pdKeys d :=
  (pdGet_isSome_iff d x).mp (by simp [h])

theorem pdSumPos_cons (k : String) (v : Int) (tl : PyDict Int) :
    pdSumPos ((k, v) :: tl) = v.toNat + pdSumPos tl := by
  simp [pdSumPos]

theorem pdSumPos_set (d : PyDict Int) (k : String) (w : Int) :
    ∀ v, pdGet d k = some v →
      pdSumPos (pdSet d k w) + v.toNat = pdSumPos d + w.toNat := by
  induction d with
  | nil => intro v hv; simp [pdGet] at hv
  | cons hd tl ih =>
    intro v hv
    obtain ⟨k0, v0⟩ := hd
    by_cases h1 : k0 = k
    · subst h1
      simp [pdGet] at hv
      subst hv
      simp [pdSet, pdSumPos_cons]
      omega
    · have hget : pdGet tl k = some v := by simpa [pdGet, h1] using hv
      have := ih v hget
      simp [pdSet, h1, pdSumPos_cons]
      omega

theorem mem_keyInsert (ks : List String) (k x : String) :
    x ∈ keyInsert ks k ↔ x ∈ ks ∨ x = k := by
  by_cases h : k ∈ ks
  · simp only [keyInsert, if_pos h]
    constructor
    · exact Or.inl
    · rintro (hx | rfl)
      · exact hx
      · exact h
  · simp [keyInsert, if_neg h]

theorem nodup_keyInsert {ks : List String} (h : ks.Nodup) (k : String) :
    (keyInsert ks k).Nodup := by
  by_cases hk : k ∈ ks
  · simpa [keyInsert, hk] using h
  · simp only [keyInsert, if_neg hk]
    exact List.Nodup.append h (List.nodup_singleton k) (by simpa using hk)

theorem keyInsert_of_mem {ks : List String} {k : String} (h : k ∈ ks) :
    keyInsert ks k = ks := by
  simp [keyInsert, h]

theorem mem_foldl_keyInsert (l : List String) :
    ∀ (acc : List String) (x : String),
      x ∈ l.foldl keyInsert acc ↔ x ∈ acc ∨ x ∈ l := by
  induction l with
  | nil => simp
  | cons hd tl ih =>
    intro acc x
    simp only [List.foldl_cons]
    rw [ih]
    rw [mem_keyInsert]
    simp only [List.mem_cons]
    tauto

theorem nodup_foldl_keyInsert (l : List String) :
    ∀ acc : List String, acc.Nodup → (l.foldl keyInsert acc).Nodup := by
  induction l with
  | nil => intro acc h; simpa using h
  | cons hd tl ih =>
    intro acc h
    exact ih _ (nodup_keyInsert h hd)

theorem mem_firstDedup (l : List String) (x : String) :
    x ∈ firstDedup l ↔ x ∈ l := by
  simp [firstDedup, mem_foldl_keyInsert]

theorem firstDedup_nodup (l : List String) : (firstDedup l).Nodup :=
  nodup_foldl_keyInsert l [] List.nodup_nil

theorem foldl_keyInsert_of_disjoint (l : List String) :
    ∀ acc : List String, l.Nodup → (∀ x ∈ l, x ∉ acc) →
      l.foldl keyInsert acc = acc ++ l := by
  induction l with
  | nil => intro acc _ _; simp
  | cons hd tl ih =>
    intro acc hnd hdisj
    have hhd : hd ∉ acc := hdisj hd (by simp)
    simp only [List.foldl_cons, keyInsert, if_neg hhd]
    rw [ih (acc ++ [hd]) hnd.of_cons]
    · simp
    · intro x hx
      simp only [List.mem_append, List.mem_singleton]
      rintro (hxa | rfl)
      · exact hdisj x (by simp [hx]) hxa
      · exact (List.nodup_cons.mp hnd).1 hx

theorem firstDedup_of_nodup {l : List String} (h : l.Nodup) : firstDedup l = l := by
  simpa using foldl_keyInsert_of_disjoint l [] h (by simp)

theorem firstDedup_subperm (l : List String) : List.Subperm (firstDedup l) l :=
  List.Nodup.subperm (firstDedup_nodup l) (fun x hx => (mem_firstDedup l x).mp hx)

theorem firstDedup_length_le (l : List String) : (firstDedup l).length ≤ l.length :=
  (firstDedup_subperm l).length_le

theorem firstDedup_length_lt {l : List String} (h : ¬ l.Nodup) :
    (firstDedup l).length < l.length := by
  rcases lt_or_eq_of_le (firstDedup_length_le l) with hlt | heq
  · exact hlt
  · exfalso
    have hperm : List.Perm (firstDedup l) l :=
      (firstDedup_subperm l).perm_of_length_le (le_of_eq heq.symm)
    exact h (hperm.nodup_iff.mp (firstDedup_nodup l))

theorem mem_filter_map_fst {β : Type} {d : PyDict β} {p : String × β → Bool} {x : String}
    (h : x ∈ (d.filter p).map Prod.fst) : x ∈ pdKeys d := by
  obtain ⟨kv, hkv, rfl⟩ := List.mem_map.mp h
  exact List.mem_map.mpr ⟨kv, List.mem_of_mem_filter hkv, rfl⟩

theorem queue0_nodup {d : PyDict Int} (h : (pdKeys d).Nodup) :
    ((d.filter (fun kv => kv.2 == (0 : Int))).map Prod.fst).Nodup := by
  have hsub : List.Sublist ((d.filter (fun kv => kv.2 == (0 : Int))).map Prod.fst) (pdKeys d) :=
    List.Sublist.map Prod.fst (List.filter_sublist d)
  exact h.sublist hsub

theorem queue0_mem {d : PyDict Int} (h : (pdKeys d).Nodup) (x : String) :
    x ∈ (d.filter (fun kv => kv.2 == (0 : Int))).map Prod.fst ↔ pdGet d x = some 0 := by
  induction d with
  | nil => simp [pdGet]
  | cons hd tl ih =>
    obtain ⟨k0, v0⟩ := hd
    have hk0 : k0 ∉ pdKeys tl := by
      simp only [pdKeys, List.map_cons, List.nodup_cons] at h
      exact h.1
    have htl : (pdKeys tl).Nodup := by
      simp only [pdKeys, List.map_cons, List.nodup_cons] at h
      exact h.2
    by_cases hx : k0 = x
    · subst hx
      by_cases hv : v0 = (0 : Int)
      · subst hv
        simp [pdGet, List.filter_cons]
      · have hL : k0 ∉ (tl.filter (fun kv => kv.2 == (0 : Int))).map Prod.fst :=
          fun hc => hk0 (mem_filter_map_fst hc)
        simp [pdGet, List.filter_cons, hv, hL, hv]
    · by_cases hv : v0 = (0 : Int)
      · subst hv
        have hne : ¬ x = k0 := fun hc => hx hc.symm
        simp [pdGet, List.filter_cons, hx, hne, ih htl]
      · simp [pdGet, List.filter_cons, hx, hv, ih htl]

theorem processNeighbors_char :
    ∀ (nbs : List String) (D : PyDict Int) (q : List String),
      (∀ nb ∈ nbs, (pdGet D nb).isSome) →
      ∃ D2 newL, processNeighbors D q nbs = .ok (D2, q ++ newL) ∧
        pdKeys D2 = pdKeys D ∧
        (∀ i, pdGet D2 i = (pdGet D i).map (fun w => w - (nbs.count i : Int))) ∧
        newL.Nodup ∧
        (∀ i, i ∈ newL ↔ ∃ w, pdGet D i = some w ∧ 1 ≤ w ∧ w ≤ (nbs.count i : Int)) := by
  intro nbs
  induction nbs with
  | nil =>
    intro D q h
    have hrun : processNeighbors D q [] = .ok (D, q ++ []) := by
      rw [List.append_nil]
      rfl
    refine ⟨D, [], hrun, rfl, ?_, List.nodup_nil, ?_⟩
    · intro i
      cases hg : pdGet D i <;> simp [hg]
    · intro i
      simp only [List.not_mem_nil, false_iff, not_exists]
      intro w
      simp only [List.count_nil, Nat.cast_zero]
      rintro ⟨hw, h1, h2⟩
      omega
  | cons nb rest ih =>
    intro D q h
    have hnb := h nb (by simp)
    rw [Option.isSome_iff_exists] at hnb
    obtain ⟨v, hv⟩ := hnb
    have h1 : ∀ x ∈ rest, (pdGet (pdSet D nb (v - 1)) x).isSome := by
      intro x hx
      rw [pdGet_set]
      by_cases hxx : nb = x
      · simp [hxx]
      · simp only [if_neg hxx]
        exact h x (by simp [hx])
    obtain ⟨D2, newL1, hrun, hk, hvals, hnd, hmem⟩ :=
      ih (pdSet D nb (v - 1)) (if v - 1 = 0 then q ++ [nb] else q) h1
    have hnbL1 : v = 1 → nb ∉ newL1 := by
      intro hv1 hc
      obtain ⟨w, hw, hw1, _⟩ := (hmem nb).mp hc
      rw [pdGet_set, if_pos rfl] at hw
      injection hw with hw
      omega
    refine ⟨D2, (if v = 1 then [nb] else []) ++ newL1, ?_, ?_, ?_, ?_, ?_⟩
    · show processNeighbors D q (nb :: rest) = _
      simp only [processNeighbors, hv]
      rw [hrun]
      by_cases hv1 : v = 1
      · have h0 : v - 1 = 0 := by omega
        rw [if_pos h0, if_pos hv1]
        simp
      · have h0 : ¬ (v - 1 = 0) := by omega
        rw [if_neg h0, if_neg hv1]
        simp
    · rw [hk, pdKeys_set, keyInsert_of_mem (mem_pdKeys_of_pdGet hv)]
    · intro i
      rw [hvals i, pdGet_set]
      by_cases hxx : nb = i
      · rw [if_pos hxx, ← hxx, hv, List.count_cons_self]
        show some _ = some _
        congr 1
        push_cast
        ring
      · have hne2 : i ≠ nb := fun hc => hxx hc.symm
        rw [if_neg hxx, List.count_cons_of_ne hne2]
    · by_cases hv1 : v = 1
      · simp only [if_pos hv1, List.singleton_append, List.nodup_cons]
        exact ⟨hnbL1 hv1, hnd⟩
      · simpa [hv1] using hnd
    · intro i
      by_cases hxx : i = nb
      · rw [hxx, List.count_cons_self]
        constructor
        · intro hi
          rcases List.mem_append.mp hi with hi1 | hi2
          · have hv1 : v = 1 := by
              by_contra hc
              simp [hc] at hi1
            refine ⟨v, hv, by omega, by push_cast; omega⟩
          · obtain ⟨w, hw, hw1, hw2⟩ := (hmem nb).mp hi2
            rw [pdGet_set, if_pos rfl] at hw
            injection hw with hw
            refine ⟨v, hv, by omega, ?_⟩
            push_cast
            omega
        · rintro ⟨w, hw, hw1, hw2⟩
          rw [hv] at hw
          injection hw with hw
          subst hw
          push_cast at hw2
          by_cases hv1 : v = 1
          · exact List.mem_append.mpr (Or.inl (by simp [hv1]))
          · refine List.mem_append.mpr (Or.inr ?_)
            refine (hmem nb).mpr ⟨v - 1, ?_, by omega, by push_cast; omega⟩
            rw [pdGet_set, if_pos rfl]
      · have hne : ¬ nb = i := fun hc => hxx hc.symm
        rw [List.count_cons_of_ne hxx]
        constructor
        · intro hi
          rcases List.mem_append.mp hi with hi1 | hi2
          · exfalso
            by_cases hv1 : v = 1 <;> simp [hv1, hxx] at hi1
          · obtain ⟨w, hw, hw1, hw2⟩ := (hmem i).mp hi2
            rw [pdGet_set, if_neg hne] at hw
            exact ⟨w, hw, hw1, hw2⟩
        · rintro ⟨w, hw, hw1, hw2⟩
          refine List.mem_append.mpr (Or.inr ?_)
          refine (hmem i).mpr ⟨w, ?_, hw1, hw2⟩
          rw [pdGet_set, if_neg hne]
          exact hw

theorem processNeighbors_measure :
    ∀ (nbs : List String) (D : PyDict Int) (q : List String) (D2 : PyDict Int) (q2 : List String),
      processNeighbors D q nbs = .ok (D2, q2) →
      q2.length + pdSumPos D2 ≤ q.length + pdSumPos D := by
  intro nbs
  induction nbs with
  | nil =>
    intro D q D2 q2 hrun
    simp only [processNeighbors] at hrun
    injection hrun with hrun
    injection hrun with h1 h2
    subst h1; subst h2
    exact le_refl _
  | cons nb rest ih =>
    intro D q D2 q2 hrun
    simp only [processNeighbors] at hrun
    cases hv : pdGet D nb with
    | none => rw [hv] at hrun; cases hrun
    | some v =>
      rw [hv] at hrun
      have hstep := ih (pdSet D nb (v - 1)) (if v - 1 = 0 then q ++ [nb] else q) D2 q2 hrun
      have hsum := pdSumPos_set D nb (v - 1) v hv
      by_cases hv1 : v - 1 = 0
      · rw [if_pos hv1] at hstep
        simp only [List.length_append, List.length_singleton] at hstep
        omega
      · rw [if_neg hv1] at hstep
        omega

theorem kahnLoop_nil (G : PyDict (List String)) (fuel : Nat) (D : PyDict Int)
    (order : List String) : kahnLoop G fuel D [] order = .ok order := by
  cases fuel <;> rfl

theorem kahnLoop_cons_ok (G : PyDict (List String)) (fuel : Nat) (D : PyDict Int)
    (c : String) (rest order : List String) (nbs : List String)
    (dq : PyDict Int × List String)
    (hg : pdGet G c = some nbs) (hpn : processNeighbors D rest nbs = .ok dq) :
    kahnLoop G (fuel + 1) D (c :: rest) order = kahnLoop G fuel dq.1 dq.2 (order ++ [c]) := by
  show (match pdGet G c with
        | some nbs =>
          match processNeighbors D rest nbs with
          | .ok dq => kahnLoop G fuel dq.1 dq.2 (order ++ [c])
          | .error e => .error e
        | Option.none => .error (.keyError c)) = _
  rw [hg]
  show (match processNeighbors D rest nbs with
        | .ok dq => kahnLoop G fuel dq.1 dq.2 (order ++ [c])
        | .error e => .error e) = _
  rw [hpn]

theorem outM_pos_mem_keys {G : PyDict (List String)} {s t : String}
    (h : 0 < outM G s t) : s ∈ pdKeys G := by
  by_contra hs
  have hnone : pdGet G s = Option.none := pdGet_eq_none_of_not_mem hs
  simp [outM, nbsOf, hnone] at h

theorem pend_subset_le (G : PyDict (List String)) {done1 done2 : List String}
    (hsub : ∀ x, x ∈ done1 → x ∈ done2) (t : String) :
    pend G done2 t ≤ pend G done1 t := by
  apply Finset.sum_le_sum_of_subset
  intro s hs
  simp only [Finset.mem_filter] at hs ⊢
  exact ⟨hs.1, fun hc => hs.2 (hsub s hc)⟩

theorem pend_anti (G : PyDict (List String)) (done : List String) (c t : String) :
    pend G (done ++ [c]) t ≤ pend G done t :=
  pend_subset_le G (fun x hx => by simp [hx]) t

theorem pend_split {G : PyDict (List String)} {done : List String} {c : String}
    (hcK : c ∈ pdKeys G) (hc : c ∉ done) (t : String) :
    pend G done t = pend G (done ++ [c]) t + outM G c t := by
  classical
  have hset : ((pdKeys G).toFinset.filter (fun s => s ∉ done ++ [c]))
      = ((pdKeys G).toFinset.filter (fun s => s ∉ done)).erase c := by
    ext x
    simp only [Finset.mem_filter, Finset.mem_erase, List.mem_append,
      List.mem_singleton, not_or, List.mem_toFinset]
    tauto
  have hcS : c ∈ (pdKeys G).toFinset.filter (fun s => s ∉ done) := by
    simp only [Finset.mem_filter, List.mem_toFinset]
    exact ⟨hcK, hc⟩
  unfold pend
  rw [hset, ← Finset.sum_erase_add _ _ hcS]

theorem pend_pos_elim {G : PyDict (List String)} {done : List String} {t : String}
    (h : 0 < pend G done t) :
    ∃ s, s ∈ pdKeys G ∧ s ∉ done ∧ 0 < outM G s t := by
  unfold pend at h
  obtain ⟨s, hs, hfs⟩ := Finset.exists_ne_zero_of_sum_ne_zero (Nat.pos_iff_ne_zero.mp h)
  simp only [Finset.mem_filter, List.mem_toFinset] at hs
  exact ⟨s, hs.1, hs.2, Nat.pos_of_ne_zero hfs⟩

theorem pend_zero_out {G : PyDict (List String)} {done : List String} {t : String}
    (h : pend G done t = 0) {s : String} (hsK : s ∈ pdKeys G) (hs : s ∉ done) :
    outM G s t = 0 := by
  unfold pend at h
  exact Finset.sum_eq_zero_iff.mp h s
    (by simp only [Finset.mem_filter, List.mem_toFinset]; exact ⟨hsK, hs⟩)

theorem kahnInv_done {G : PyDict (List String)} {D : PyDict Int} {order : List String}
    (hinv : KahnInv G D [] order) :
    order.Nodup ∧ (∀ x ∈ order, x ∈ pdKeys G) ∧
    (∀ j t, order.get? j = some t → ∀ s, 0 < outM G s t →
      ∃ k, k < j ∧ order.get? k = some s) ∧
    (∀ i ∈ pdKeys G, i ∉ order → 0 < pend G order i) := by
  obtain ⟨h1, h2, h3, h4, h5, h6, h7⟩ := hinv
  refine ⟨by simpa using h2, fun x hx => h3 x (by simp [hx]), h7, ?_⟩
  intro i hiK hio
  rcases Nat.eq_zero_or_pos (pend G order i) with hz | hp
  · exact absurd ((h5 i hiK hio).mp hz) (by simp)
  · exact hp

theorem kahnLoop_ok (G : PyDict (List String))
    (hGc : ∀ s t, t ∈ nbsOf G s → t ∈ pdKeys G) :
    ∀ (fuel : Nat) (D : PyDict Int) (queue order : List String),
      KahnInv G D queue order → queue.length + pdSumPos D ≤ fuel →
      ∃ rest, kahnLoop G fuel D queue order = .ok (order ++ rest) ∧
        (order ++ rest).Nodup ∧
        (∀ x ∈ order ++ rest, x ∈ pdKeys G) ∧
        (∀ j t, (order ++ rest).get? j = some t → ∀ s, 0 < outM G s t →
          ∃ k, k < j ∧ (order ++ rest).get? k = some s) ∧
        (∀ i ∈ pdKeys G, i ∉ order ++ rest → 0 < pend G (order ++ rest) i) := by
  intro fuel
  induction fuel with
  | zero =>
    intro D queue order hinv hfuel
    have hq : queue = [] := List.eq_nil_of_length_eq_zero (by omega)
    subst hq
    obtain ⟨c1, c2, c3, c4⟩ := kahnInv_done hinv
    exact ⟨[], by rw [kahnLoop_nil, List.append_nil], by simpa using c1,
      by simpa using c2, by simpa using c3, by simpa using c4⟩
  | succ f ih =>
    intro D queue order hinv hfuel
    cases queue with
    | nil =>
      obtain ⟨c1, c2, c3, c4⟩ := kahnInv_done hinv
      exact ⟨[], by rw [kahnLoop_nil, List.append_nil], by simpa using c1,
        by simpa using c2, by simpa using c3, by simpa using c4⟩
    | cons current restQ =>
      obtain ⟨h1, h2, h3, h4, h5, h6, h7⟩ := hinv
      have hnodups := (List.nodup_append.mp h2)
      obtain ⟨horder_nd, hq_nd, hdisj⟩ := hnodups
      have hcK : current ∈ pdKeys G := h3 current (by simp)
      have hcO : current ∉ order := fun hc => hdisj hc (by simp)
      have hpc0 : pend G order current = 0 := (h5 current hcK hcO).mpr (by simp)
      have hsplit : ∀ i, pend G order i =
          pend G (order ++ [current]) i + outM G current i :=
        fun i => pend_split hcK hcO i
      obtain ⟨nbs, hg⟩ := Option.isSome_iff_exists.mp ((pdGet_isSome_iff G current).mpr hcK)
      have hnbs : nbsOf G current = nbs := by simp [nbsOf, hg]
      have hPNpre : ∀ nb ∈ nbs, (pdGet D nb).isSome := by
        intro nb hnb
        rw [pdGet_isSome_iff, h1]
        exact hGc current nb (by rwa [hnbs])
      obtain ⟨D2, newL, hpn, hk2, hv2, hndL, hmemL⟩ :=
        processNeighbors_char nbs D restQ hPNpre
      have hcnt : ∀ i, nbs.count i = outM G current i := by
        intro i
        rw [outM, hnbs]
      have hchar : ∀ i, i ∈ newL ↔
          (i ∈ pdKeys G ∧ 1 ≤ pend G order i ∧ pend G (order ++ [current]) i = 0) := by
        intro i
        rw [hmemL i]
        by_cases hiK : i ∈ pdKeys G
        · rw [h4 i hiK]
          constructor
          · rintro ⟨w, hw, hw1, hw2⟩
            injection hw with hw
            subst hw
            rw [hcnt i] at hw2
            have hs := hsplit i
            constructor
            · exact hiK
            constructor
            · exact_mod_cast hw1
            · have hle : pend G order i ≤ outM G current i := by exact_mod_cast hw2
              omega
          · rintro ⟨_, hp1, hp2⟩
            refine ⟨(pend G order i : Int), rfl, by exact_mod_cast hp1, ?_⟩
            rw [hcnt i]
            have hs := hsplit i
            have : pend G order i ≤ outM G current i := by omega
            exact_mod_cast this
        · have hnone : pdGet D i = Option.none := by
            apply pdGet_eq_none_of_not_mem
            rw [h1]
            exact hiK
          simp [hnone, hiK]
      have hvals2 : ∀ i ∈ pdKeys G,
          pdGet D2 i = some ((pend G (order ++ [current]) i : Int)) := by
        intro i hiK
        rw [hv2 i, h4 i hiK]
        show some _ = some _
        congr 1
        rw [hcnt i]
        show (pend G order i : Int) - (outM G current i : Int) =
          ((pend G (order ++ [current]) i : Int))
        have hs := hsplit i
        omega
      have hinQ : ∀ x ∈ restQ, x ∉ order ∧ x ≠ current := by
        intro x hx
        constructor
        · exact fun hc => hdisj hc (by simp [hx])
        · intro hc
          subst hc
          exact (List.nodup_cons.mp hq_nd).1 hx
      have hLdisj : ∀ x, x ∈ order ∨ x = current ∨ x ∈ restQ → x ∉ newL := by
        intro x hx hc
        obtain ⟨hxK, hx1, _⟩ := (hchar x).mp hc
        rcases hx with hxo | rfl | hxq
        · rw [h6 x hxo] at hx1
          omega
        · rw [hpc0] at hx1
          omega
        · have hxo : x ∉ order := (hinQ x hxq).1
          have : pend G order x = 0 := (h5 x hxK hxo).mpr (by simp [hxq])
          rw [this] at hx1
          omega
      have hinv2 : KahnInv G D2 (restQ ++ newL) (order ++ [current]) := by
        refine ⟨hk2.trans h1, ?_, ?_, hvals2, ?_, ?_, ?_⟩
        · have hA : ((order ++ [current]) ++ restQ).Nodup := by
            have : (order ++ [current]) ++ restQ = order ++ current :: restQ := by simp
            rw [this]
            exact h2
          rw [← List.append_assoc]
          rw [List.nodup_append]
          refine ⟨hA, hndL, ?_⟩
          intro x hxA
          apply hLdisj
          rcases List.mem_append.mp hxA with hx1 | hx2
          · rcases List.mem_append.mp hx1 with hx3 | hx4
            · exact Or.inl hx3
            · exact Or.inr (Or.inl (by simpa using hx4))
          · exact Or.inr (Or.inr hx2)
        · intro x hx
          rcases List.mem_append.mp hx with hx1 | hx2
          · rcases List.mem_append.mp hx1 with hx3 | hx4
            · exact h3 x (by simp [hx3])
            · have : x = current := by simpa using hx4
              subst this
              exact hcK
          · rcases List.mem_append.mp hx2 with hx3 | hx4
            · exact h3 x (by simp [hx3])
            · exact ((hchar x).mp hx4).1
        · intro i hiK hio
          have hio1 : i ∉ order := fun hc => hio (by simp [hc])
          have hic : i ≠ current := fun hc => hio (by simp [hc])
          constructor
          · intro hp0
            rcases Nat.eq_zero_or_pos (pend G order i) with hz | hpos
            · have hiq : i ∈ current :: restQ := (h5 i hiK hio1).mp hz
              rcases List.mem_cons.mp hiq with hc | hq
              · exact absurd hc hic
              · exact List.mem_append.mpr (Or.inl hq)
            · exact List.mem_append.mpr (Or.inr ((hchar i).mpr ⟨hiK, hpos, hp0⟩))
          · intro hi
            rcases List.mem_append.mp hi with hiq | hiL
            · have hz : pend G order i = 0 := (h5 i hiK hio1).mpr (by simp [hiq])
              have hs := hsplit i
              omega
            · exact ((hchar i).mp hiL).2.2
        · intro i hi
          rcases List.mem_append.mp hi with hio | hic
          · have hs := hsplit i
            have hz := h6 i hio
            omega
          · have : i = current := by simpa using hic
            subst this
            have hs := hsplit i
            omega
        · intro j t hj s hout
          rcases lt_trichotomy j order.length with hlt | heq | hgt
          · rw [List.get?_append hlt] at hj
            obtain ⟨k, hk, hkeq⟩ := h7 j t hj s hout
            have hkl : k < order.length := lt_trans hk hlt
            exact ⟨k, hk, by rw [List.get?_append hkl]; exact hkeq⟩
          · subst heq
            rw [List.get?_concat_length] at hj
            injection hj with hj
            subst hj
            have hsK : s ∈ pdKeys G := outM_pos_mem_keys hout
            have hsO : s ∈ order := by
              by_contra hsO
              rw [pend_zero_out hpc0 hsK hsO] at hout
              omega
            obtain ⟨k, hkeq⟩ := List.mem_iff_get?.mp hsO
            have hkl : k < order.length := by
              by_contra hc
              rw [List.get?_eq_none.mpr (le_of_not_lt hc)] at hkeq
              cases hkeq
            exact ⟨k, hkl, by rw [List.get?_append hkl]; exact hkeq⟩
          · exfalso
            rw [List.get?_eq_none.mpr (by simp; omega)] at hj
            cases hj
      have hmeas := processNeighbors_measure nbs D restQ D2 (restQ ++ newL) hpn
      have hfuel2 : (restQ ++ newL).length + pdSumPos D2 ≤ f := by
        simp only [List.length_cons] at hfuel
        simp only [List.length_append] at hmeas ⊢
        omega
      obtain ⟨rest2, hrun2, c1, c2, c3, c4⟩ := ih D2 (restQ ++ newL) (order ++ [current]) hinv2 hfuel2
      have hre : order ++ current :: rest2 = (order ++ [current]) ++ rest2 := by simp
      refine ⟨current :: rest2, ?_, ?_, ?_, ?_, ?_⟩
      · rw [kahnLoop_cons_ok G f D current restQ order nbs (D2, restQ ++ newL) hg hpn]
        rw [hrun2, hre]
      · rw [hre]
        exact c1
      · rw [hre]
        exact c2
      · rw [hre]
        exact c3
      · rw [hre]
        exact c4

theorem initDicts_go (nodes : List Node) :
    ∀ (g : PyDict (List String)) (d : PyDict Int),
      pdKeys (nodes.foldl (fun gd n => (pdSet gd.1 n.id [], pdSet gd.2 n.id 0)) (g, d)).1
        = (nodes.map Node.id).foldl keyInsert (pdKeys g) ∧
      pdKeys (nodes.foldl (fun gd n => (pdSet gd.1 n.id [], pdSet gd.2 n.id 0)) (g, d)).2
        = (nodes.map Node.id).foldl keyInsert (pdKeys d) ∧
      (∀ x, pdGet (nodes.foldl (fun gd n => (pdSet gd.1 n.id [], pdSet gd.2 n.id 0)) (g, d)).1 x
        = if x ∈ nodes.map Node.id then some [] else pdGet g x) ∧
      (∀ x, pdGet (nodes.foldl (fun gd n => (pdSet gd.1 n.id [], pdSet gd.2 n.id 0)) (g, d)).2 x
        = if x ∈ nodes.map Node.id then some 0 else pdGet d x) := by
  induction nodes with
  | nil =>
    intro g d
    simp
  | cons n rest ih =>
    intro g d
    simp only [List.foldl_cons, List.map_cons]
    obtain ⟨ih1, ih2, ih3, ih4⟩ := ih (pdSet g n.id []) (pdSet d n.id 0)
    refine ⟨?_, ?_, ?_, ?_⟩
    · rw [ih1, pdKeys_set]
    · rw [ih2, pdKeys_set]
    · intro x
      rw [ih3 x, pdGet_set]
      by_cases hx : x ∈ rest.map Node.id
      · rw [if_pos hx, if_pos (List.mem_cons_of_mem _ hx)]
      · rw [if_neg hx]
        by_cases hxn : n.id = x
        · rw [if_pos hxn, if_pos (List.mem_cons.mpr (Or.inl hxn.symm))]
        · rw [if_neg hxn, if_neg ?_]
          intro hc
          rcases List.mem_cons.mp hc with hc1 | hc2
          · exact hxn hc1.symm
          · exact hx hc2
    · intro x
      rw [ih4 x, pdGet_set]
      by_cases hx : x ∈ rest.map Node.id
      · rw [if_pos hx, if_pos (List.mem_cons_of_mem _ hx)]
      · rw [if_neg hx]
        by_cases hxn : n.id = x
        · rw [if_pos hxn, if_pos (List.mem_cons.mpr (Or.inl hxn.symm))]
        · rw [if_neg hxn, if_neg ?_]
          intro hc
          rcases List.mem_cons.mp hc with hc1 | hc2
          · exact hxn hc1.symm
          · exact hx hc2

theorem initDicts_spec (nodes : List Node) :
    pdKeys (initDicts nodes).1 = firstDedup (nodes.map Node.id) ∧
    pdKeys (initDicts nodes).2 = firstDedup (nodes.map Node.id) ∧
    (∀ x, pdGet (initDicts nodes).1 x =
      if x ∈ nodes.map Node.id then some [] else Option.none) ∧
    (∀ x, pdGet (initDicts nodes).2 x =
      if x ∈ nodes.map Node.id then some 0 else Option.none) := by
  have h := initDicts_go nodes [] []
  simpa [initDicts, firstDedup, pdKeys, pdGet] using h

theorem addEdges_cons_none (g : PyDict (List String)) (d : PyDict Int) (e : Edge)
    (rest : List Edge) (h : pdGet g e.source = Option.none) :
    addEdges g d (e :: rest) = addEdges g d rest := by
  show (match pdGet g e.source with
        | some lst =>
          match pdGet d e.target with
          | some v => addEdges (pdSet g e.source (lst ++ [e.target])) (pdSet d e.target (v + 1)) rest
          | Option.none => .error (.keyError e.target)
        | Option.none => addEdges g d rest) = _
  rw [h]

theorem addEdges_cons_some (g : PyDict (List String)) (d : PyDict Int) (e : Edge)
    (rest : List Edge) (lst : List String) (v : Int)
    (hs : pdGet g e.source = some lst) (ht : pdGet d e.target = some v) :
    addEdges g d (e :: rest) =
      addEdges (pdSet g e.source (lst ++ [e.target])) (pdSet d e.target (v + 1)) rest := by
  show (match pdGet g e.source with
        | some lst =>
          match pdGet d e.target with
          | some v => addEdges (pdSet g e.source (lst ++ [e.target])) (pdSet d e.target (v + 1)) rest
          | Option.none => .error (.keyError e.target)
        | Option.none => addEdges g d rest) = _
  rw [hs]
  show (match pdGet d e.target with
        | some v => addEdges (pdSet g e.source (lst ++ [e.target])) (pdSet d e.target (v + 1)) rest
        | Option.none => .error (.keyError e.target)) = _
  rw [ht]

theorem addEdges_cons_keyerr (g : PyDict (List String)) (d : PyDict Int) (e : Edge)
    (rest : List Edge) (lst : List String)
    (hs : pdGet g e.source = some lst) (ht : pdGet d e.target = Option.none) :
    addEdges g d (e :: rest) = .error (.keyError e.target) := by
  show (match pdGet g e.source with
        | some lst =>
          match pdGet d e.target with
          | some v => addEdges (pdSet g e.source (lst ++ [e.target])) (pdSet d e.target (v + 1)) rest
          | Option.none => .error (.keyError e.target)
        | Option.none => addEdges g d rest) = _
  rw [hs]
  show (match pdGet d e.target with
        | some v => addEdges (pdSet g e.source (lst ++ [e.target])) (pdSet d e.target (v + 1)) rest
        | Option.none => .error (.keyError e.target)) = _
  rw [ht]

theorem pdGet_isSome_congr {β γ : Type} {a : PyDict β} {b : PyDict γ}
    (h : pdKeys a = pdKeys b) (x : String) :
    (pdGet a x).isSome = (pdGet b x).isSome := by
  by_cases hx : x ∈ pdKeys b
  · rw [(pdGet_isSome_iff a x).mpr (by rw [h]; exact hx), (pdGet_isSome_iff b x).mpr hx]
  · have ha : x ∉ pdKeys a := by rw [h]; exact hx
    rw [pdGet_eq_none_of_not_mem ha, pdGet_eq_none_of_not_mem hx]
    rfl

theorem addEdges_ok_spec :
    ∀ (es : List Edge) (g : PyDict (List String)) (d : PyDict Int)
      (g2 : PyDict (List String)) (d2 : PyDict Int),
      addEdges g d es = .ok (g2, d2) →
      pdKeys g2 = pdKeys g ∧ pdKeys d2 = pdKeys d ∧
      (∀ s, pdGet g2 s = (pdGet g s).map
        (fun l => l ++ (es.filter (fun e => e.source == s)).map Edge.target)) ∧
      (∀ t, pdGet d2 t = (pdGet d t).map
        (fun v => v +
          ((es.filter (fun e => (pdGet g e.source).isSome && e.target == t)).length : Int))) ∧
      (∀ e ∈ es, (pdGet g e.source).isSome → (pdGet d e.target).isSome) := by
  intro es
  induction es with
  | nil =>
    intro g d g2 d2 h
    have h2 : (g, d) = (g2, d2) := by
      simpa [addEdges] using h
    rw [Prod.mk.injEq] at h2
    obtain ⟨rfl, rfl⟩ := h2.symm.imp Eq.symm Eq.symm
    refine ⟨rfl, rfl, ?_, ?_, by simp⟩
    · intro s
      cases pdGet g2 s <;> simp
    · intro t
      cases pdGet d2 t <;> simp
  | cons e rest ih =>
    intro g d g2 d2 h
    cases hsrc : pdGet g e.source with
    | none =>
      rw [addEdges_cons_none g d e rest hsrc] at h
      obtain ⟨k1, k2, v1, v2, pr⟩ := ih g d g2 d2 h
      refine ⟨k1, k2, ?_, ?_, ?_⟩
      · intro s
        rw [v1 s]
        by_cases hes : e.source = s
        · subst hes
          rw [hsrc]
          simp
        · have : (e.source == s) = false := by simp [hes]
          rw [List.filter_cons, this]
          simp
      · intro t
        rw [v2 t]
        have : ((pdGet g e.source).isSome && (e.target == t)) = false := by
          simp [hsrc]
        rw [List.filter_cons, this]
        simp
      · intro e2 he2
        rcases List.mem_cons.mp he2 with rfl | hmem
        · intro hcontra
          rw [hsrc] at hcontra
          simp at hcontra
        · exact pr e2 hmem
    | some lst =>
      cases htgt : pdGet d e.target with
      | none =>
        rw [addEdges_cons_keyerr g d e rest lst hsrc htgt] at h
        cases h
      | some v =>
        rw [addEdges_cons_some g d e rest lst v hsrc htgt] at h
        obtain ⟨k1, k2, v1, v2, pr⟩ := ih _ _ g2 d2 h
        have hgk : pdKeys (pdSet g e.source (lst ++ [e.target])) = pdKeys g := by
          rw [pdKeys_set, keyInsert_of_mem (mem_pdKeys_of_pdGet hsrc)]
        have hdk : pdKeys (pdSet d e.target (v + 1)) = pdKeys d := by
          rw [pdKeys_set, keyInsert_of_mem (mem_pdKeys_of_pdGet htgt)]
        have hfiltc : ∀ t, rest.filter
              (fun x => (pdGet (pdSet g e.source (lst ++ [e.target])) x.source).isSome
                && (x.target == t))
            = rest.filter (fun x => (pdGet g x.source).isSome && (x.target == t)) := by
          intro t
          apply List.filter_congr
          intro x _
          rw [pdGet_isSome_congr hgk x.source]
        refine ⟨k1.trans hgk, k2.trans hdk, ?_, ?_, ?_⟩
        · intro s
          rw [v1 s, pdGet_set]
          by_cases hes : e.source = s
          · subst hes
            rw [if_pos rfl, hsrc, List.filter_cons]
            have : (e.source == e.source) = true := by simp
            rw [this]
            simp
          · have hb : (e.source == s) = false := by simp [hes]
            rw [if_neg hes, List.filter_cons, hb]
            simp
        · intro t
          rw [v2 t, pdGet_set, hfiltc t]
          by_cases het : e.target = t
          · subst het
            rw [if_pos rfl, htgt, List.filter_cons]
            have hbt : ((pdGet g e.source).isSome && (e.target == e.target)) = true := by
              simp [hsrc]
            rw [hbt]
            simp only [Option.map_some', List.length_cons, if_true]
            congr 1
            push_cast
            ring
          · have hb : ((pdGet g e.source).isSome && (e.target == t)) = false := by
              simp [het]
            rw [if_neg het, List.filter_cons, hb]
            simp
        · intro e2 he2
          rcases List.mem_cons.mp he2 with rfl | hmem
          · intro _
            simp [htgt]
          · intro hsome
            have hsome2 : (pdGet (pdSet g e.source (lst ++ [e.target])) e2.source).isSome := by
              rw [pdGet_isSome_congr hgk]
              exact hsome
            have := pr e2 hmem hsome2
            rwa [pdGet_isSome_congr hdk] at this

theorem addEdges_ok_of :
    ∀ (es : List Edge) (g : PyDict (List String)) (d : PyDict Int),
      (∀ e ∈ es, (pdGet d e.target).isSome) →
      ∃ gd2, addEdges g d es = .ok gd2 := by
  intro es
  induction es with
  | nil =>
    intro g d _
    exact ⟨(g, d), rfl⟩
  | cons e rest ih =>
    intro g d hpre
    cases hsrc : pdGet g e.source with
    | none =>
      obtain ⟨gd2, hgd2⟩ := ih g d (fun x hx => hpre x (by simp [hx]))
      exact ⟨gd2, by rw [addEdges_cons_none g d e rest hsrc]; exact hgd2⟩
    | some lst =>
      have ht := hpre e (by simp)
      obtain ⟨v, hv⟩ := Option.isSome_iff_exists.mp ht
      have hdk : pdKeys (pdSet d e.target (v + 1)) = pdKeys d := by
        rw [pdKeys_set, keyInsert_of_mem (mem_pdKeys_of_pdGet hv)]
      obtain ⟨gd2, hgd2⟩ := ih (pdSet g e.source (lst ++ [e.target])) (pdSet d e.target (v + 1))
        (fun x hx => by
          rw [pdGet_isSome_congr hdk]
          exact hpre x (by simp [hx]))
      exact ⟨gd2, by rw [addEdges_cons_some g d e rest lst v hsrc hv]; exact hgd2⟩

theorem sum_count_filter_map (K : Finset String) (edges : List Edge) (t : String) :
    (∑ s ∈ K, ((edges.filter (fun e => e.source == s)).map Edge.target).count t) =
      (edges.filter (fun e => decide (e.source ∈ K) && (e.target == t))).length := by
  induction edges with
  | nil => simp
  | cons e rest ih =>
    have hstep : ∀ s, ((List.filter (fun x => x.source == s) (e :: rest)).map Edge.target).count t
        = (if e.source = s ∧ e.target = t then 1 else 0)
          + ((List.filter (fun x => x.source == s) rest).map Edge.target).count t := by
      intro s
      rw [List.filter_cons]
      by_cases hs : e.source = s
      · have hb : (e.source == s) = true := by simp [hs]
        rw [hb]
        simp only [if_true, List.map_cons, List.count_cons]
        by_cases htt : e.target = t
        · simp [hs, htt]
          omega
        · have : ¬ t = e.target := fun hc => htt hc.symm
          simp [hs, htt, this]
      · have hb : (e.source == s) = false := by simp [hs]
        rw [hb]
        simp [hs]
    rw [Finset.sum_congr rfl (fun s _ => hstep s), Finset.sum_add_distrib, ih]
    have hδ : (∑ s ∈ K, if e.source = s ∧ e.target = t then 1 else 0)
        = if e.source ∈ K ∧ e.target = t then 1 else 0 := by
      by_cases htt : e.target = t
      · simp only [htt, and_true]
        exact Finset.sum_ite_eq K e.source (fun _ => 1)
      · simp [htt]
    rw [hδ, List.filter_cons]
    by_cases hc : e.source ∈ K ∧ e.target = t
    · have hb : (decide (e.source ∈ K) && (e.target == t)) = true := by
        simp [hc.1, hc.2]
      rw [hb, if_pos hc]
      simp only [if_true, List.length_cons]
      omega
    · have hb : (decide (e.source ∈ K) && (e.target == t)) = false := by
        rw [Bool.eq_false_iff]
        intro hbc
        simp only [Bool.and_eq_true, decide_eq_true_eq, beq_iff_eq] at hbc
        exact hc hbc
      rw [hb, if_neg hc]
      simp

theorem pend_init_eq (G : PyDict (List String)) (edges : List Edge)
    (hK : ∀ s ∈ pdKeys G,
      pdGet G s = some ((edges.filter (fun e => e.source == s)).map Edge.target))
    (t : String) :
    pend G [] t = (edges.filter
      (fun e => decide (e.source ∈ pdKeys G) && (e.target == t))).length := by
  unfold pend
  have hfilter : (pdKeys G).toFinset.filter (fun s => s ∉ ([] : List String))
      = (pdKeys G).toFinset := by
    simp
  rw [hfilter]
  have hconv : edges.filter (fun e => decide (e.source ∈ (pdKeys G).toFinset) && (e.target == t))
      = edges.filter (fun e => decide (e.source ∈ pdKeys G) && (e.target == t)) := by
    apply List.filter_congr
    intro x _
    have : (x.source ∈ (pdKeys G).toFinset) = (x.source ∈ pdKeys G) := by
      simp [List.mem_toFinset]
    rw [decide_eq_decide.mpr (by rw [this])]
  rw [← hconv, ← sum_count_filter_map ((pdKeys G).toFinset) edges t]
  apply Finset.sum_congr rfl
  intro s hs
  rw [List.mem_toFinset] at hs
  rw [outM, nbsOf, hK s hs]
  rfl

theorem build_after_edges (nodes : List Node) (edges : List Edge)
    (G : PyDict (List String)) (D : PyDict Int)
    (hadd : addEdges (initDicts nodes).1 (initDicts nodes).2 edges = .ok (G, D)) :
    ∃ order : List String,
      build_execution_graph nodes edges =
        (if order.length = nodes.length then .ok order else .error (.valueError cycleMsg)) ∧
      order.Nodup ∧
      (∀ x ∈ order, x ∈ nodes.map Node.id) ∧
      (∀ j t, order.get? j = some t → ∀ s, 0 < outM G s t →
        ∃ k, k < j ∧ order.get? k = some s) ∧
      (∀ i ∈ pdKeys G, i ∉ order → 0 < pend G order i) ∧
      pdKeys G = firstDedup (nodes.map Node.id) ∧
      (∀ s ∈ pdKeys G,
        pdGet G s = some ((edges.filter (fun e => e.source == s)).map Edge.target)) := by
  obtain ⟨hik1, hik2, hig, hid⟩ := initDicts_spec nodes
  obtain ⟨k1, k2, v1, v2, pr⟩ := addEdges_ok_spec edges (initDicts nodes).1 (initDicts nodes).2 G D hadd
  have hKG : pdKeys G = firstDedup (nodes.map Node.id) := k1.trans hik1
  have hKD : pdKeys D = firstDedup (nodes.map Node.id) := k2.trans hik2
  have hmemK : ∀ x, x ∈ pdKeys G ↔ x ∈ nodes.map Node.id := fun x => by
    rw [hKG, mem_firstDedup]
  have hGval : ∀ s ∈ pdKeys G,
      pdGet G s = some ((edges.filter (fun e => e.source == s)).map Edge.target) := by
    intro s hs
    rw [v1 s, hig s, if_pos ((hmemK s).mp hs)]
    simp
  have hsrcSome : ∀ x : String,
      (pdGet (initDicts nodes).1 x).isSome = decide (x ∈ pdKeys G) := by
    intro x
    rw [hig x]
    by_cases hx : x ∈ nodes.map Node.id
    · rw [if_pos hx]
      simp [(hmemK x).mpr hx]
    · rw [if_neg hx]
      have : x ∉ pdKeys G := fun hc => hx ((hmemK x).mp hc)
      simp [this]
  have hDval : ∀ t ∈ pdKeys G, pdGet D t = some ((pend G [] t : Int)) := by
    intro t ht
    rw [v2 t, hid t, if_pos ((hmemK t).mp ht), pend_init_eq G edges hGval t]
    have hfc : edges.filter (fun e => (pdGet (initDicts nodes).1 e.source).isSome && (e.target == t))
        = edges.filter (fun e => decide (e.source ∈ pdKeys G) && (e.target == t)) := by
      apply List.filter_congr
      intro x _
      rw [hsrcSome x.source]
    show some _ = some _
    congr 1
    rw [← hfc]
    push_cast
    ring
  have hGc : ∀ s t2, t2 ∈ nbsOf G s → t2 ∈ pdKeys G := by
    intro s t2 ht2
    by_cases hs : s ∈ pdKeys G
    · rw [nbsOf, hGval s hs] at ht2
      simp only [Option.getD_some] at ht2
      obtain ⟨e, he, rfl⟩ := List.mem_map.mp ht2
      have hef := List.mem_filter.mp he
      have hsrc : (pdGet (initDicts nodes).1 e.source).isSome := by
        rw [hsrcSome e.source]
        simp only [decide_eq_true_eq]
        have : e.source = s := by
          have := hef.2
          simpa using this
        rw [this]
        exact hs
      have := pr e hef.1 hsrc
      have hmem : e.target ∈ pdKeys (initDicts nodes).2 := (pdGet_isSome_iff _ _).mp this
      rw [hik2, ← hKG] at hmem
      exact hmem
    · rw [nbsOf, pdGet_eq_none_of_not_mem hs] at ht2
      simp at ht2
  have hDnodup : (pdKeys D).Nodup := by
    rw [hKD]
    exact firstDedup_nodup _
  have hqn : ((D.filter (fun kv => kv.2 == (0 : Int))).map Prod.fst).Nodup :=
    queue0_nodup hDnodup
  have hqm : ∀ x, x ∈ (D.filter (fun kv => kv.2 == (0 : Int))).map Prod.fst ↔
      pdGet D x = some 0 := queue0_mem hDnodup
  have hinv : KahnInv G D ((D.filter (fun kv => kv.2 == (0 : Int))).map Prod.fst) [] := by
    refine ⟨hKD.trans hKG.symm, by simpa using hqn, ?_, ?_, ?_, by simp, ?_⟩
    · intro x hx
      simp only [List.nil_append] at hx
      have hsome := mem_pdKeys_of_pdGet ((hqm x).mp hx)
      rw [hKD, ← hKG] at hsome
      exact hsome
    · intro i hiK
      exact hDval i hiK
    · intro i hiK _
      rw [hqm i, hDval i hiK]
      constructor
      · intro h0
        rw [h0]
        norm_num
      · intro h0
        injection h0 with h0
        exact_mod_cast h0
    · intro j t hj
      simp at hj
  obtain ⟨order, hrun, hnd, hmem, hsort, hcomp⟩ :=
    kahnLoop_ok G hGc
      (((D.filter (fun kv => kv.2 == (0 : Int))).map Prod.fst).length + pdSumPos D)
      D ((D.filter (fun kv => kv.2 == (0 : Int))).map Prod.fst) [] hinv (le_refl _)
  simp only [List.nil_append] at hrun hnd hmem hsort hcomp
  have hbuild : build_execution_graph nodes edges =
      (if order.length = nodes.length then .ok order else .error (.valueError cycleMsg)) := by
    show ((match addEdges (initDicts nodes).1 (initDicts nodes).2 edges with
          | Except.error e => Except.error e
          | Except.ok gd2 =>
            let queue := (gd2.2.filter (fun kv => kv.2 == (0 : Int))).map Prod.fst
            match kahnLoop gd2.1 (queue.length + pdSumPos gd2.2) gd2.2 queue [] with
            | Except.error e => Except.error e
            | Except.ok order =>
              if order.length ≠ nodes.length then Except.error (PyError.valueError cycleMsg)
              else Except.ok order) : Except PyError (List String)) = _
    rw [hadd]
    show ((match kahnLoop G
            (((D.filter (fun kv => kv.2 == (0 : Int))).map Prod.fst).length + pdSumPos D)
            D ((D.filter (fun kv => kv.2 == (0 : Int))).map Prod.fst) [] with
          | Except.error e => Except.error e
          | Except.ok order =>
            if order.length ≠ nodes.length then Except.error (PyError.valueError cycleMsg)
            else Except.ok order) : Except PyError (List String)) = _
    rw [hrun]
    show ((if order.length ≠ nodes.length then Except.error (PyError.valueError cycleMsg)
          else Except.ok order) : Except PyError (List String)) = _
    by_cases hlen : order.length = nodes.length
    · simp [hlen]
    · simp [hlen]
  exact ⟨order, hbuild, hnd, fun x hx => (hmemK x).mp (hmem x hx), hsort, hcomp, hKG, hGval⟩

theorem build_eq_of_addEdges_error {nodes : List Node} {edges : List Edge} {e : PyError}
    (hadd : addEdges (initDicts nodes).1 (initDicts nodes).2 edges = .error e) :
    build_execution_graph nodes edges = .error e := by
  show ((match addEdges (initDicts nodes).1 (initDicts nodes).2 edges with
        | Except.error e => Except.error e
        | Except.ok gd2 =>
          let queue := (gd2.2.filter (fun kv => kv.2 == (0 : Int))).map Prod.fst
          match kahnLoop gd2.1 (queue.length + pdSumPos gd2.2) gd2.2 queue [] with
          | Except.error e => Except.error e
          | Except.ok order =>
            if order.length ≠ nodes.length then Except.error (PyError.valueError cycleMsg)
            else Except.ok order) : Except PyError (List String)) = _
  rw [hadd]

theorem build_run (nodes : List Node) (edges : List Edge)
    (hwf : ∀ e ∈ edges, e.target ∈ nodes.map Node.id) :
    ∃ order : List String,
      build_execution_graph nodes edges =
        (if order.length = nodes.length then .ok order else .error (.valueError cycleMsg)) ∧
      order.Nodup ∧
      (∀ x ∈ order, x ∈ nodes.map Node.id) ∧
      (∀ j t, order.get? j = some t → ∀ s, s ∈ nodes.map Node.id → edgeStep edges s t →
        ∃ k, k < j ∧ order.get? k = some s) ∧
      (∀ i ∈ nodes.map Node.id, i ∉ order →
        ∃ s, s ∈ nodes.map Node.id ∧ s ∉ order ∧ edgeStep edges s i) := by
  obtain ⟨hik1, hik2, hig, hid⟩ := initDicts_spec nodes
  have hpre : ∀ e ∈ edges, (pdGet (initDicts nodes).2 e.target).isSome := by
    intro e he
    rw [hid e.target, if_pos (hwf e he)]
    rfl
  obtain ⟨gd2, hadd⟩ := addEdges_ok_of edges (initDicts nodes).1 (initDicts nodes).2 hpre
  obtain ⟨G, D⟩ := gd2
  obtain ⟨order, hbuild, hnd, hmem, hsort, hcomp, hKG, hGval⟩ :=
    build_after_edges nodes edges G D hadd
  have hmemK : ∀ x, x ∈ pdKeys G ↔ x ∈ nodes.map Node.id := fun x => by
    rw [hKG, mem_firstDedup]
  have houtM : ∀ s t2, 0 < outM G s t2 ↔ s ∈ pdKeys G ∧ edgeStep edges s t2 := by
    intro s t2
    constructor
    · intro h
      have hs := outM_pos_mem_keys h
      refine ⟨hs, ?_⟩
      rw [outM, nbsOf, hGval s hs] at h
      simp only [Option.getD_some] at h
      have hmm : t2 ∈ (edges.filter (fun e => e.source == s)).map Edge.target := by
        by_contra hc
        rw [List.count_eq_zero_of_not_mem hc] at h
        omega
      obtain ⟨e, he, rfl⟩ := List.mem_map.mp hmm
      have hef := List.mem_filter.mp he
      exact ⟨e, hef.1, by simpa using hef.2, rfl⟩
    · rintro ⟨hs, e, he, hes, het⟩
      rw [outM, nbsOf, hGval s hs]
      simp only [Option.getD_some]
      have hmm : t2 ∈ (edges.filter (fun e2 => e2.source == s)).map Edge.target :=
        List.mem_map.mpr ⟨e, List.mem_filter.mpr ⟨he, by simp [hes]⟩, het⟩
      rcases Nat.eq_zero_or_pos (((edges.filter (fun e2 => e2.source == s)).map Edge.target).count t2)
        with h0 | hp
      · exact absurd hmm (List.count_eq_zero.mp h0)
      · exact hp
  refine ⟨order, hbuild, hnd, hmem, ?_, ?_⟩
  · intro j t hj s hsid hstep
    exact hsort j t hj s ((houtM s t).mpr ⟨(hmemK s).mpr hsid, hstep⟩)
  · intro i hiid hio
    obtain ⟨s, hsK, hsno, hsout⟩ := pend_pos_elim (hcomp i ((hmemK i).mpr hiid) hio)
    obtain ⟨_, hstep⟩ := (houtM s i).mp hsout
    exact ⟨s, (hmemK s).mp hsK, hsno, hstep⟩

theorem build_ok_props {nodes : List Node} {edges : List Edge} {order : List String}
    (hb : build_execution_graph nodes edges = .ok order) :
    order.Nodup ∧ order.length = nodes.length ∧ (∀ x ∈ order, x ∈ nodes.map Node.id) := by
  cases hadd : addEdges (initDicts nodes).1 (initDicts nodes).2 edges with
  | error e =>
    rw [build_eq_of_addEdges_error hadd] at hb
    cases hb
  | ok gd2 =>
    obtain ⟨G, D⟩ := gd2
    obtain ⟨order2, hbuild, hnd, hmem, _, _, _, _⟩ := build_after_edges nodes edges G D hadd
    rw [hb] at hbuild
    by_cases hlen : order2.length = nodes.length
    · rw [if_pos hlen] at hbuild
      injection hbuild with h2
      subst h2
      exact ⟨hnd, hlen, hmem⟩
    · rw [if_neg hlen] at hbuild
      cases hbuild

theorem cycle_of_pred {R : String → String → Prop} (U : Finset String) (hne : U.Nonempty)
    (h : ∀ i ∈ U, ∃ s ∈ U, R s i) : ∃ v, Relation.TransGen R v v := by
  classical
  obtain ⟨u0, hu0⟩ := hne
  have hch : ∀ i, ∃ s, i ∈ U → (s ∈ U ∧ R s i) := by
    intro i
    by_cases hi : i ∈ U
    · obtain ⟨s, hs, hrs⟩ := h i hi
      exact ⟨s, fun _ => ⟨hs, hrs⟩⟩
    · exact ⟨u0, fun hc => absurd hc hi⟩
  choose f hf using hch
  have hmemIter : ∀ n, f^[n] u0 ∈ U := by
    intro n
    induction n with
    | zero => simpa using hu0
    | succ k ihk =>
      rw [Function.iterate_succ_apply']
      exact (hf _ ihk).1
  have hstep : ∀ n, R (f^[n + 1] u0) (f^[n] u0) := by
    intro n
    rw [Function.iterate_succ_apply']
    exact (hf _ (hmemIter n)).2
  have hchain0 : ∀ d p, Relation.TransGen R (f^[p + d + 1] u0) (f^[p] u0) := by
    intro d
    induction d with
    | zero => intro p; exact Relation.TransGen.single (hstep p)
    | succ k ihk =>
      intro p
      have hidx : p + (k + 1) + 1 = (p + k + 1) + 1 := by ring
      rw [hidx]
      exact Relation.TransGen.head (hstep (p + k + 1)) (ihk p)
  have hchain : ∀ p q : Nat, p < q → Relation.TransGen R (f^[q] u0) (f^[p] u0) := by
    intro p q hpq
    obtain ⟨d, rfl⟩ : ∃ d, q = p + d + 1 := ⟨q - p - 1, by omega⟩
    exact hchain0 d p
  have hmap : ∀ n ∈ Finset.range (U.card + 1), f^[n] u0 ∈ U := fun n _ => hmemIter n
  have hcard : U.card < (Finset.range (U.card + 1)).card := by simp
  obtain ⟨a, ha, b, hb, hab, heq⟩ :=
    Finset.exists_ne_map_eq_of_card_lt_of_maps_to hcard hmap
  rcases lt_or_gt_of_ne hab with h1 | h1
  · have hc := hchain a b h1
    rw [← heq] at hc
    exact ⟨_, hc⟩
  · have hc := hchain b a h1
    rw [heq] at hc
    exact ⟨_, hc⟩

theorem transGen_earlier {R : String → String → Prop} {order : List String}
    (hsort : ∀ j t, order.get? j = some t → ∀ s, R s t →
      ∃ k, k < j ∧ order.get? k = some s) :
    ∀ s t, Relation.TransGen R s t → ∀ j, order.get? j = some t →
      ∃ k, k < j ∧ order.get? k = some s := by
  intro s t h
  induction h with
  | single h1 =>
    intro j hj
    exact hsort j _ hj s h1
  | tail hsm hmt ihm =>
    intro j hj
    obtain ⟨k, hk, hkeq⟩ := hsort j _ hj _ hmt
    obtain ⟨k2, hk2, hk2eq⟩ := ihm k hkeq
    exact ⟨k2, lt_trans hk2 hk, hk2eq⟩

theorem acyclic_of_rank {R : String → String → Prop} (f : String → Nat)
    (h : ∀ a b, R a b → f a < f b) : ∀ v, ¬ Relation.TransGen R v v := by
  have hmono : ∀ a b, Relation.TransGen R a b → f a < f b := by
    intro a b hab
    induction hab with
    | single h1 => exact h _ _ h1
    | tail _ hbc ih => exact lt_trans ih (h _ _ hbc)
  intro v hv
  exact lt_irrefl _ (hmono v v hv)

theorem transGen_head_mem {edges : List Edge} {v : String}
    (h : Relation.TransGen (edgeStep edges) v v) : ∃ e ∈ edges, e.source = v := by
  have hgen : ∀ a b, Relation.TransGen (edgeStep edges) a b → ∃ e ∈ edges, e.source = a := by
    intro a b hab
    induction hab with
    | single h1 =>
      obtain ⟨e, he, hs, _⟩ := h1
      exact ⟨e, he, hs⟩
    | tail hab _ ih => exact ih
  exact hgen v v h

theorem nodup_get?_inj {l : List String} (h : l.Nodup) {i j : Nat} {a : String}
    (hi : l.get? i = some a) (hj : l.get? j = some a) : i = j := by
  obtain ⟨hil, hia⟩ := List.get?_eq_some.mp hi
  obtain ⟨hjl, hja⟩ := List.get?_eq_some.mp hj
  have hget : l.get ⟨i, hil⟩ = l.get ⟨j, hjl⟩ := by rw [hia, hja]
  have := (List.Nodup.get_inj_iff h).mp hget
  exact congrArg Fin.val this

/-- C1: for every graph with duplicate-free node ids whose edges reference
present node ids and which has no directed cycle, `build_execution_graph`
returns an order that is a permutation of the node ids (of length the node
count) in which every edge's source appears strictly before its target. -/
theorem build_execution_graph_topo_sorts
    (nodes : List Node) (edges : List Edge)
    (hn : (nodes.map Node.id).Nodup)
    (hs : ∀ e ∈ edges, e.source ∈ nodes.map Node.id)
    (ht : ∀ e ∈ edges, e.target ∈ nodes.map Node.id)
    (hacyc : ∀ v, ¬ Relation.TransGen (edgeStep edges) v v) :
    ∃ order, build_execution_graph nodes edges = .ok order ∧
      List.Perm order (nodes.map Node.id) ∧ order.length = nodes.length ∧
      ∀ e ∈ edges, ∃ k j, k < j ∧ order.get? k = some e.source ∧
        order.get? j = some e.target := by
  classical
  obtain ⟨order, hbuild, hnd, hmem, hsort, hcomp⟩ := build_run nodes edges ht
  have hall : ∀ i ∈ nodes.map Node.id, i ∈ order := by
    by_contra hc
    push_neg at hc
    obtain ⟨i0, hi0id, hi0o⟩ := hc
    have hne : ((nodes.map Node.id).toFinset.filter (fun x => x ∉ order)).Nonempty :=
      ⟨i0, by simp [hi0id, hi0o]⟩
    have hpred : ∀ i ∈ (nodes.map Node.id).toFinset.filter (fun x => x ∉ order),
        ∃ s ∈ (nodes.map Node.id).toFinset.filter (fun x => x ∉ order),
          edgeStep edges s i := by
      intro i hiU
      simp only [Finset.mem_filter, List.mem_toFinset] at hiU
      obtain ⟨s, hsid, hsno, hstep⟩ := hcomp i hiU.1 hiU.2
      exact ⟨s, by simp [hsid, hsno], hstep⟩
    obtain ⟨v, hv⟩ := cycle_of_pred _ hne hpred
    exact hacyc v hv
  have hperm : List.Perm order (nodes.map Node.id) :=
    (List.Nodup.subperm hnd hmem).antisymm (List.Nodup.subperm hn hall)
  have hlen : order.length = nodes.length := by
    rw [hperm.length_eq, List.length_map]
  rw [hlen, if_pos rfl] at hbuild
  refine ⟨order, hbuild, hperm, hlen, ?_⟩
  intro e he
  obtain ⟨j, hjeq⟩ := List.mem_iff_get?.mp (hall _ (ht e he))
  obtain ⟨k, hk, hkeq⟩ := hsort j e.target hjeq e.source (hs e he) ⟨e, he, rfl, rfl⟩
  exact ⟨k, j, hk, hkeq, hjeq⟩

theorem build_execution_graph_topo_sorts_witness :
    ∃ order, build_execution_graph chainNodes chainEdges = .ok order ∧
      List.Perm order (chainNodes.map Node.id) ∧ order.length = chainNodes.length ∧
      ∀ e ∈ chainEdges, ∃ k j, k < j ∧ order.get? k = some e.source ∧
        order.get? j = some e.target := by
  apply build_execution_graph_topo_sorts chainNodes chainEdges
  · decide
  · decide
  · decide
  · apply acyclic_of_rank chainRank
    rintro a b ⟨e, he, hsa, htb⟩
    have he2 : e = ⟨"A", "B"⟩ ∨ e = ⟨"B", "C"⟩ := by
      simpa [chainEdges] using he
    rcases he2 with rfl | rfl
    · rw [← hsa, ← htb]
      decide
    · rw [← hsa, ← htb]
      decide

/-- C2: for every graph with duplicate-free node ids whose edges reference
present node ids and which contains a directed cycle,
`build_execution_graph` raises the cycle `ValueError` instead of returning
an order. -/
theorem build_execution_graph_cycle_fails
    (nodes : List Node) (edges : List Edge)
    (hn : (nodes.map Node.id).Nodup)
    (hs : ∀ e ∈ edges, e.source ∈ nodes.map Node.id)
    (ht : ∀ e ∈ edges, e.target ∈ nodes.map Node.id)
    (hcyc : ∃ v, Relation.TransGen (edgeStep edges) v v) :
    build_execution_graph nodes edges = .error (.valueError cycleMsg) := by
  classical
  obtain ⟨order, hbuild, hnd, hmem, hsort, _⟩ := build_run nodes edges ht
  obtain ⟨v, hv⟩ := hcyc
  obtain ⟨e, he, hesv⟩ := transGen_head_mem hv
  have hvid : v ∈ nodes.map Node.id := hesv ▸ hs e he
  have hvno : v ∉ order := by
    intro hvo
    obtain ⟨j, hjeq⟩ := List.mem_iff_get?.mp hvo
    have hsort2 : ∀ j2 t, order.get? j2 = some t → ∀ s, edgeStep edges s t →
        ∃ k, k < j2 ∧ order.get? k = some s := by
      intro j2 t hj2 s hstep
      obtain ⟨e2, he2, hse2, hte2⟩ := hstep
      exact hsort j2 t hj2 s (hse2 ▸ hs e2 he2) ⟨e2, he2, hse2, hte2⟩
    obtain ⟨k, hk, hkeq⟩ := transGen_earlier hsort2 v v hv j hjeq
    have := nodup_get?_inj hnd hkeq hjeq
    omega
  have hlt : order.length < nodes.length := by
    have hsubF : order.toFinset ⊆ ((nodes.map Node.id).toFinset).erase v := by
      intro x hx
      rw [List.mem_toFinset] at hx
      rw [Finset.mem_erase]
      exact ⟨fun hc => hvno (hc ▸ hx), List.mem_toFinset.mpr (hmem x hx)⟩
    have hc1 : order.toFinset.card = order.length := List.toFinset_card_of_nodup hnd
    have hc2 : (nodes.map Node.id).toFinset.card = nodes.length := by
      rw [List.toFinset_card_of_nodup hn, List.length_map]
    have hcard := Finset.card_le_card hsubF
    have herase := Finset.card_erase_of_mem (List.mem_toFinset.mpr hvid)
    have hpos : 0 < (nodes.map Node.id).toFinset.card :=
      Finset.card_pos.mpr ⟨v, List.mem_toFinset.mpr hvid⟩
    omega
  rw [if_neg (by omega)] at hbuild
  exact hbuild

theorem build_execution_graph_cycle_fails_witness :
    build_execution_graph pairNodes cycleEdges = .error (.valueError cycleMsg) := by
  apply build_execution_graph_cycle_fails pairNodes cycleEdges
  · decide
  · decide
  · decide
  · refine ⟨"A", @Relation.TransGen.tail String (edgeStep cycleEdges) "A" "B" "A"
      (Relation.TransGen.single ?_) ?_⟩
    · exact ⟨⟨"A", "B"⟩, by simp [cycleEdges], rfl, rfl⟩
    · exact ⟨⟨"B", "A"⟩, by simp [cycleEdges], rfl, rfl⟩

/-- C5 (amended): when two nodes share an id (and edges reference present
node ids), `build_execution_graph` does fail, but with the same cycle
`ValueError` as for cyclic graphs; there is no distinct duplicate-node-id
error in the code. -/
theorem duplicate_ids_fail_with_cycle_error
    (nodes : List Node) (edges : List Edge)
    (hdup : ¬ (nodes.map Node.id).Nodup)
    (ht : ∀ e ∈ edges, e.target ∈ nodes.map Node.id) :
    build_execution_graph nodes edges = .error (.valueError cycleMsg) := by
  obtain ⟨order, hbuild, hnd, hmem, _, _⟩ := build_run nodes edges ht
  have h1 : order.length ≤ (firstDedup (nodes.map Node.id)).length :=
    (List.Nodup.subperm hnd (fun x hx => (mem_firstDedup _ _).mpr (hmem x hx))).length_le
  have h2 : (firstDedup (nodes.map Node.id)).length < nodes.length := by
    have := firstDedup_length_lt hdup
    rwa [List.length_map] at this
  rw [if_neg (by omega)] at hbuild
  exact hbuild

theorem duplicate_ids_fail_with_cycle_error_witness :
    build_execution_graph dupNodes [] = .error (.valueError cycleMsg) :=
  duplicate_ids_fail_with_cycle_error dupNodes [] (by decide) (by decide)

/-- C5 (counterexample to the claim as stated): with two nodes sharing the id
"A" and no edges, `build_execution_graph` raises exactly the cycle
`ValueError` ("Workflow contains cycles and cannot be executed"), not a
distinct duplicate-node-id error. -/
theorem duplicate_ids_counterexample :
    build_execution_graph dupNodes [] = .error (.valueError cycleMsg) ∧
    pyErrStr (.valueError cycleMsg) = "Workflow contains cycles and cannot be executed" := by
  constructor
  · decide
  · rfl

theorem pdSet_append_of_not_mem {β : Type} {d : PyDict β} {k : String}
    (h : k ∉ pdKeys d) (v : β) : pdSet d k v = d ++ [(k, v)] := by
  induction d with
  | nil => rfl
  | cons hd tl ih =>
    obtain ⟨k0, v0⟩ := hd
    simp only [pdKeys, List.map_cons, List.mem_cons] at h
    push_neg at h
    show (if k0 = k then (k0, v) :: tl else (k0, v0) :: pdSet tl k v) = _
    rw [if_neg (fun hc => h.1 hc.symm), ih (by simpa [pdKeys] using h.2)]
    simp

theorem initDicts_nodup_entries (nodes : List Node) (hn : (nodes.map Node.id).Nodup) :
    initDicts nodes = ((nodes.map Node.id).map (fun i => (i, ([] : List String))),
                       (nodes.map Node.id).map (fun i => (i, (0 : Int)))) := by
  suffices h : ∀ (l : List Node) (g : PyDict (List String)) (d : PyDict Int),
      (l.map Node.id).Nodup → (∀ x ∈ l.map Node.id, x ∉ pdKeys g) →
      (∀ x ∈ l.map Node.id, x ∉ pdKeys d) →
      l.foldl (fun gd n => (pdSet gd.1 n.id [], pdSet gd.2 n.id 0)) (g, d)
        = (g ++ (l.map Node.id).map (fun i => (i, ([] : List String))),
           d ++ (l.map Node.id).map (fun i => (i, (0 : Int)))) by
    have hres := h nodes [] [] hn (by simp [pdKeys]) (by simp [pdKeys])
    simpa [initDicts] using hres
  intro l
  induction l with
  | nil =>
    intro g d _ _ _
    simp
  | cons n rest ih =>
    intro g d hnd hg hd
    simp only [List.foldl_cons, List.map_cons]
    have hgn : n.id ∉ pdKeys g := hg n.id (by simp)
    have hdn : n.id ∉ pdKeys d := hd n.id (by simp)
    have hmc : (n.id :: rest.map Node.id).Nodup := by simpa using hnd
    have hnmem : n.id ∉ rest.map Node.id := (List.nodup_cons.mp hmc).1
    have hnd2 : (rest.map Node.id).Nodup := (List.nodup_cons.mp hmc).2
    have hg2 : ∀ x ∈ rest.map Node.id, x ∉ pdKeys (pdSet g n.id []) := by
      intro x hx
      rw [pdKeys_set, mem_keyInsert]
      push_neg
      exact ⟨hg x (by simp [hx]), fun hc => hnmem (hc ▸ hx)⟩
    have hd2 : ∀ x ∈ rest.map Node.id, x ∉ pdKeys (pdSet d n.id 0) := by
      intro x hx
      rw [pdKeys_set, mem_keyInsert]
      push_neg
      exact ⟨hd x (by simp [hx]), fun hc => hnmem (hc ▸ hx)⟩
    rw [ih (pdSet g n.id []) (pdSet d n.id 0) hnd2 hg2 hd2,
      pdSet_append_of_not_mem hgn, pdSet_append_of_not_mem hdn]
    simp

theorem pdGet_const_map {β : Type} (l : List String) (c : β) (x : String) :
    pdGet (l.map (fun i => (i, c))) x = if x ∈ l then some c else Option.none := by
  induction l with
  | nil => simp [pdGet]
  | cons a rest ih =>
    by_cases hax : a = x
    · simp [pdGet, hax]
    · have hxa : ¬ x = a := fun hc => hax hc.symm
      simp only [List.map_cons, pdGet, if_neg hax, ih, List.mem_cons]
      by_cases hx : x ∈ rest
      · rw [if_pos hx, if_pos (Or.inr hx)]
      · rw [if_neg hx, if_neg (by rintro (hc | hc); exact hxa hc; exact hx hc)]

theorem kahnLoop_all_nil (G : PyDict (List String)) :
    ∀ queue : List String, (∀ x ∈ queue, pdGet G x = some []) →
    ∀ (fuel : Nat) (D : PyDict Int) (order : List String), queue.length ≤ fuel →
      kahnLoop G fuel D queue order = .ok (order ++ queue) := by
  intro queue
  induction queue with
  | nil =>
    intro _ fuel D order _
    rw [kahnLoop_nil]
    simp
  | cons c rest ih =>
    intro hq fuel D order hfuel
    cases fuel with
    | zero =>
      exfalso
      simp only [List.length_cons] at hfuel
      omega
    | succ f =>
      have hg : pdGet G c = some [] := hq c (by simp)
      have hpn : processNeighbors D rest [] = .ok (D, rest) := rfl
      rw [kahnLoop_cons_ok G f D c rest order [] (D, rest) hg hpn]
      rw [ih (fun x hx => hq x (by simp [hx])) f D (order ++ [c])
        (by simp only [List.length_cons] at hfuel; omega)]
      simp

/-- C9: `build_execution_graph` is deterministic (in the pure embedding two
invocations on the same input are the same term), and the FIFO tie-break on
zero-in-degree candidates means an edge-free graph with duplicate-free ids is
ordered exactly as the node list; in particular nodes [A, B] with no edges
yield the order [A, B]. -/
theorem build_execution_graph_deterministic_fifo :
    (∀ (nodes : List Node) (edges : List Edge),
      build_execution_graph nodes edges = build_execution_graph nodes edges) ∧
    (∀ nodes : List Node, (nodes.map Node.id).Nodup →
      build_execution_graph nodes [] = .ok (nodes.map Node.id)) := by
  refine ⟨fun _ _ => rfl, ?_⟩
  intro nodes hn
  have hinit := initDicts_nodup_entries nodes hn
  have hG1 : (initDicts nodes).1 = (nodes.map Node.id).map (fun i => (i, ([] : List String))) := by
    rw [hinit]
  have hD1 : (initDicts nodes).2 = (nodes.map Node.id).map (fun i => (i, (0 : Int))) := by
    rw [hinit]
  have hadd : addEdges (initDicts nodes).1 (initDicts nodes).2 [] =
      .ok ((initDicts nodes).1, (initDicts nodes).2) := rfl
  have hfilter : ((nodes.map Node.id).map (fun i => (i, (0 : Int)))).filter
      (fun kv => kv.2 == (0 : Int)) = (nodes.map Node.id).map (fun i => (i, (0 : Int))) := by
    apply List.filter_eq_self.mpr
    intro a ha
    obtain ⟨i, _, rfl⟩ := List.mem_map.mp ha
    simp
  have hqueue : (((nodes.map Node.id).map (fun i => (i, (0 : Int)))).filter
      (fun kv => kv.2 == (0 : Int))).map Prod.fst = nodes.map Node.id := by
    rw [hfilter, List.map_map]
    simp
  have hsum : pdSumPos ((nodes.map Node.id).map (fun i => (i, (0 : Int)))) = 0 := by
    apply List.sum_eq_zero
    intro x hx
    rw [List.map_map] at hx
    obtain ⟨i, _, rfl⟩ := List.mem_map.mp hx
    rfl
  have hGget : ∀ x ∈ nodes.map Node.id,
      pdGet ((nodes.map Node.id).map (fun i => (i, ([] : List String)))) x = some [] := by
    intro x hx
    rw [pdGet_const_map, if_pos hx]
  show ((match addEdges (initDicts nodes).1 (initDicts nodes).2 [] with
        | Except.error e => Except.error e
        | Except.ok gd2 =>
          let queue := (gd2.2.filter (fun kv => kv.2 == (0 : Int))).map Prod.fst
          match kahnLoop gd2.1 (queue.length + pdSumPos gd2.2) gd2.2 queue [] with
          | Except.error e => Except.error e
          | Except.ok order =>
            if order.length ≠ nodes.length then Except.error (PyError.valueError cycleMsg)
            else Except.ok order) : Except PyError (List String)) = _
  rw [hadd]
  show ((match kahnLoop (initDicts nodes).1
          ((((initDicts nodes).2.filter (fun kv => kv.2 == (0 : Int))).map Prod.fst).length
            + pdSumPos (initDicts nodes).2)
          (initDicts nodes).2
          (((initDicts nodes).2.filter (fun kv => kv.2 == (0 : Int))).map Prod.fst) [] with
        | Except.error e => Except.error e
        | Except.ok order =>
          if order.length ≠ nodes.length then Except.error (PyError.valueError cycleMsg)
          else Except.ok order) : Except PyError (List String)) = _
  rw [hG1, hD1, hqueue, hsum]
  rw [kahnLoop_all_nil ((nodes.map Node.id).map (fun i => (i, ([] : List String))))
    (nodes.map Node.id) hGget ((nodes.map Node.id).length + 0)
    ((nodes.map Node.id).map (fun i => (i, (0 : Int)))) [] (by omega)]
  show (if (([] ++ nodes.map Node.id) : List String).length ≠ nodes.length
        then Except.error (PyError.valueError cycleMsg)
        else Except.ok ([] ++ nodes.map Node.id)) = _
  simp

theorem build_execution_graph_deterministic_fifo_witness :
    build_execution_graph pairNodes [] = .ok ["A", "B"] :=
  build_execution_graph_deterministic_fifo.2 pairNodes (by decide)

theorem addEdges_nil_nil :
    ∀ es : List Edge, addEdges ([] : PyDict (List String)) ([] : PyDict Int) es = .ok ([], []) := by
  intro es
  induction es with
  | nil => rfl
  | cons e rest ih =>
    rw [addEdges_cons_none [] [] e rest rfl]
    exact ih

theorem build_execution_graph_empty (edges : List Edge) :
    build_execution_graph [] edges = .ok [] := by
  show ((match addEdges ([] : PyDict (List String)) ([] : PyDict Int) edges with
        | Except.error e => Except.error e
        | Except.ok gd2 =>
          let queue := (gd2.2.filter (fun kv => kv.2 == (0 : Int))).map Prod.fst
          match kahnLoop gd2.1 (queue.length + pdSumPos gd2.2) gd2.2 queue [] with
          | Except.error e => Except.error e
          | Except.ok order =>
            if order.length ≠ (([] : List Node)).length then Except.error (PyError.valueError cycleMsg)
            else Except.ok order) : Except PyError (List String)) = _
  rw [addEdges_nil_nil edges]
  rfl

/-- C10: running `execute_workflow` on an empty node list yields a failed
run: the empty execution order makes `execution_order[-1]` raise
`IndexError("list index out of range")`, which the `except` clause catches
and reports with status "failed" and empty node outputs. -/
theorem execute_workflow_empty_nodes_failed
    (ex : Node → PyDict Value → Except String Value) (edges : List Edge)
    (input_data : PyDict Value) :
    execute_workflow ex [] edges input_data = .failed "list index out of range" [] := by
  show (match build_execution_graph [] edges with
        | Except.error e => RunResult.failed (pyErrStr e) []
        | Except.ok order =>
          match execLoop ex (mkLookup []) edges input_data [] order with
          | Except.error mo => RunResult.failed mo.1 mo.2
          | Except.ok outs =>
            match order.getLast? with
            | Option.none => RunResult.failed "list index out of range" outs
            | some last =>
              RunResult.success ((pdGet ((pdGet outs last).getD []) "value").getD Value.none)
                outs order) = _
  rw [build_execution_graph_empty edges]
  rfl

theorem execLoop_append (ex : Node → PyDict Value → Except String Value)
    (lookup : PyDict Node) (edges : List Edge) (input_data : PyDict Value) :
    ∀ (l1 l2 : List String) (outs : PyDict (PyDict Value)),
      execLoop ex lookup edges input_data outs (l1 ++ l2) =
        match execLoop ex lookup edges input_data outs l1 with
        | .ok o2 => execLoop ex lookup edges input_data o2 l2
        | .error e => .error e := by
  intro l1
  induction l1 with
  | nil => intro l2 outs; rfl
  | cons nid rest ih =>
    intro l2 outs
    cases hl : pdGet lookup nid with
    | none => simp [execLoop, hl]
    | some node =>
      cases he : ex node (resolve_node_inputs outs nid edges input_data) with
      | error msg => simp [execLoop, hl, he]
      | ok r => simp [execLoop, hl, he, ih]

theorem execLoop_ok_keys (ex : Node → PyDict Value → Except String Value)
    (lookup : PyDict Node) (edges : List Edge) (input_data : PyDict Value) :
    ∀ (l : List String) (outs outs2 : PyDict (PyDict Value)),
      execLoop ex lookup edges input_data outs l = .ok outs2 →
      pdKeys outs2 = l.foldl keyInsert (pdKeys outs) := by
  intro l
  induction l with
  | nil =>
    intro outs outs2 h
    injection h with h
    rw [← h]
    rfl
  | cons nid rest ih =>
    intro outs outs2 h
    cases hl : pdGet lookup nid with
    | none => simp [execLoop, hl] at h
    | some node =>
      cases he : ex node (resolve_node_inputs outs nid edges input_data) with
      | error msg => simp [execLoop, hl, he] at h
      | ok r =>
        simp only [execLoop, hl, he] at h
        rw [ih _ _ h, pdKeys_set]
        rfl

/-- C4: when the first `i` nodes of the execution order run successfully and
the `i`-th node's executor raises, `execute_workflow` returns the failed
result carrying that error message and exactly the outputs of the nodes
strictly before the failing one; the failing node and every later node are
absent from the output map (no later node is executed). -/
theorem execute_workflow_failure_partial_outputs
    (ex : Node → PyDict Value → Except String Value)
    (nodes : List Node) (edges : List Edge) (input_data : PyDict Value)
    (order : List String) (i : Nat) (nid : String) (nd : Node)
    (outs : PyDict (PyDict Value)) (msg : String)
    (hb : build_execution_graph nodes edges = .ok order)
    (hnth : order.get? i = some nid)
    (hsteps : execLoop ex (mkLookup nodes) edges input_data [] (order.take i) = .ok outs)
    (hlook : pdGet (mkLookup nodes) nid = some nd)
    (hfail : ex nd (resolve_node_inputs outs nid edges input_data) = .error msg) :
    execute_workflow ex nodes edges input_data = .failed msg outs ∧
    pdKeys outs = order.take i ∧
    (∀ j nid2, i ≤ j → order.get? j = some nid2 → pdGet outs nid2 = Option.none) := by
  obtain ⟨hnd, _, _⟩ := build_ok_props hb
  have hkeys : pdKeys outs = order.take i := by
    rw [execLoop_ok_keys ex (mkLookup nodes) edges input_data (order.take i) [] outs hsteps]
    have htakend : (order.take i).Nodup := hnd.sublist (List.take_sublist i order)
    have := foldl_keyInsert_of_disjoint (order.take i) [] htakend (by simp)
    rw [show pdKeys ([] : PyDict (PyDict Value)) = [] from rfl, this]
    simp
  obtain ⟨hil, hieq⟩ := List.get?_eq_some.mp hnth
  have hdrop : order.drop i = nid :: order.drop (i + 1) := by
    rw [List.drop_eq_get_cons hil, hieq]
  have hsplit2 : execLoop ex (mkLookup nodes) edges input_data [] order = .error (msg, outs) := by
    conv_lhs => rw [← List.take_append_drop i order]
    rw [execLoop_append, hsteps]
    show execLoop ex (mkLookup nodes) edges input_data outs (order.drop i) = _
    rw [hdrop]
    show (match pdGet (mkLookup nodes) nid with
          | some node =>
            match ex node (resolve_node_inputs outs nid edges input_data) with
            | Except.ok r => execLoop ex (mkLookup nodes) edges input_data
                (pdSet outs nid [("value", r)]) (order.drop (i + 1))
            | Except.error msg => Except.error (msg, outs)
          | Option.none => Except.error ("\x27" ++ nid ++ "\x27", outs)) = _
    rw [hlook]
    show (match ex nd (resolve_node_inputs outs nid edges input_data) with
          | Except.ok r => execLoop ex (mkLookup nodes) edges input_data
              (pdSet outs nid [("value", r)]) (order.drop (i + 1))
          | Except.error msg => Except.error (msg, outs)) = _
    rw [hfail]
  refine ⟨?_, hkeys, ?_⟩
  · show (match build_execution_graph nodes edges with
          | Except.error e => RunResult.failed (pyErrStr e) []
          | Except.ok order =>
            match execLoop ex (mkLookup nodes) edges input_data [] order with
            | Except.error mo => RunResult.failed mo.1 mo.2
            | Except.ok outs2 =>
              match order.getLast? with
              | Option.none => RunResult.failed "list index out of range" outs2
              | some last =>
                RunResult.success ((pdGet ((pdGet outs2 last).getD []) "value").getD Value.none)
                  outs2 order) = _
    rw [hb]
    show (match execLoop ex (mkLookup nodes) edges input_data [] order with
          | Except.error mo => RunResult.failed mo.1 mo.2
          | Except.ok outs2 =>
            match order.getLast? with
            | Option.none => RunResult.failed "list index out of range" outs2
            | some last =>
              RunResult.success ((pdGet ((pdGet outs2 last).getD []) "value").getD Value.none)
                outs2 order) = _
    rw [hsplit2]
  · intro j nid2 hij hj
    have hmemt : nid2 ∉ order.take i := by
      intro hc
      obtain ⟨k, hkeq⟩ := List.mem_iff_get?.mp hc
      obtain ⟨hkl, _⟩ := List.get?_eq_some.mp hkeq
      rw [List.length_take] at hkl
      have hki : k < i := lt_of_lt_of_le hkl (min_le_left _ _)
      have hord : order.get? k = some nid2 := by
        rw [← List.get?_take hki]
        exact hkeq
      have := nodup_get?_inj hnd hord hj
      omega
    rw [← hkeys] at hmemt
    exact pdGet_eq_none_of_not_mem hmemt

theorem execute_workflow_failure_partial_outputs_witness :
    execute_workflow failOnN2 failNodes failEdges [] = .failed "boom" outsBeforeFail ∧
    pdKeys outsBeforeFail = ["n1"] ∧ pdGet outsBeforeFail "n2" = Option.none := by
  obtain ⟨h1, h2, h3⟩ := execute_workflow_failure_partial_outputs failOnN2 failNodes failEdges []
    ["n1", "n2"] 1 "n2" ⟨"n2", "action", []⟩ outsBeforeFail "boom"
    (by decide) rfl (by decide) rfl rfl
  exact ⟨h1, by simpa using h2, h3 1 "n2" (le_refl 1) rfl⟩

theorem pdSet_ne_nil {β : Type} (d : PyDict β) (k : String) (v : β) : pdSet d k v ≠ [] := by
  cases d with
  | nil => simp [pdSet]
  | cons hd tl =>
    obtain ⟨k0, v0⟩ := hd
    by_cases h : k0 = k <;> simp [pdSet, h]

theorem pdUpdate_ne_nil_of_ne (a : PyDict Value) :
    ∀ b : PyDict Value, b ≠ [] → pdUpdate a b ≠ [] := by
  suffices hgen : ∀ (b : PyDict Value) (a : PyDict Value), b ≠ [] → pdUpdate a b ≠ [] by
    intro b hb
    exact hgen b a hb
  intro b
  induction b with
  | nil => intro a h; exact absurd rfl h
  | cons p rest ih =>
    intro a _
    show pdUpdate (pdSet a p.1 p.2) rest ≠ []
    cases rest with
    | nil => exact pdSet_ne_nil a p.1 p.2
    | cons q tl => exact ih (pdSet a p.1 p.2) (List.cons_ne_nil q tl)

theorem foldl_update_ne_nil (f : Edge → PyDict Value) :
    ∀ (l : List Edge) (acc : PyDict Value), acc ≠ [] →
      l.foldl (fun acc2 e => pdUpdate acc2 (f e)) acc ≠ [] := by
  intro l
  induction l with
  | nil => intro acc h; simpa using h
  | cons e rest ih =>
    intro acc h
    simp only [List.foldl_cons]
    apply ih
    cases hf : f e with
    | nil => simpa [pdUpdate, hf] using h
    | cons p tl =>
      exact pdUpdate_ne_nil_of_ne acc (p :: tl) (List.cons_ne_nil p tl)

theorem pdUpdate_get (b : PyDict Value) :
    ∀ a : PyDict Value, (pdKeys b).Nodup → ∀ k,
      pdGet (pdUpdate a b) k = (match pdGet b k with
        | some v => some v
        | Option.none => pdGet a k) := by
  induction b with
  | nil =>
    intro a _ k
    rfl
  | cons p rest ih =>
    intro a hnd k
    obtain ⟨k0, v0⟩ := p
    have hkeys : pdKeys ((k0, v0) :: rest) = k0 :: pdKeys rest := rfl
    rw [hkeys] at hnd
    have h0 : k0 ∉ pdKeys rest := (List.nodup_cons.mp hnd).1
    have hndr : (pdKeys rest).Nodup := (List.nodup_cons.mp hnd).2
    show pdGet (pdUpdate (pdSet a k0 v0) rest) k = _
    rw [ih (pdSet a k0 v0) hndr k]
    by_cases hk : k0 = k
    · subst hk
      have hrest : pdGet rest k0 = Option.none := pdGet_eq_none_of_not_mem h0
      rw [hrest]
      show pdGet (pdSet a k0 v0) k0 = _
      rw [pdGet_set, if_pos rfl]
      show _ = (match pdGet ((k0, v0) :: rest) k0 with
        | some v => some v
        | Option.none => pdGet a k0)
      have : pdGet ((k0, v0) :: rest) k0 = some v0 := by
        show (if k0 = k0 then some v0 else pdGet rest k0) = some v0
        rw [if_pos rfl]
      rw [this]
    · have hcons : pdGet ((k0, v0) :: rest) k = pdGet rest k := by
        show (if k0 = k then some v0 else pdGet rest k) = pdGet rest k
        rw [if_neg hk]
      rw [hcons]
      cases hr : pdGet rest k with
      | some v => rfl
      | none =>
        show pdGet (pdSet a k0 v0) k = pdGet a k
        rw [pdGet_set, if_neg hk]

theorem get_node_inputs_eq_filter_fold (node_outputs : PyDict (PyDict Value))
    (node_id : String) (edges : List Edge)
    (h1 : ∀ e ∈ edges, e.target = node_id → (pdGet node_outputs e.source).isSome) :
    get_node_inputs node_outputs node_id edges =
      (edges.filter (fun e => e.target == node_id)).foldl
        (fun acc e => pdUpdate acc ((pdGet node_outputs e.source).getD [])) [] := by
  suffices hgen : ∀ (es : List Edge) (acc : PyDict Value),
      (∀ e ∈ es, e.target = node_id → (pdGet node_outputs e.source).isSome) →
      es.foldl (fun inputs e =>
        if e.target = node_id then
          match pdGet node_outputs e.source with
          | some out => pdUpdate inputs out
          | Option.none => inputs
        else inputs) acc
      = (es.filter (fun e => e.target == node_id)).foldl
          (fun acc2 e => pdUpdate acc2 ((pdGet node_outputs e.source).getD [])) acc by
    exact hgen edges [] h1
  intro es
  induction es with
  | nil => intro acc _; rfl
  | cons e rest ih =>
    intro acc hpre
    simp only [List.foldl_cons, List.filter_cons]
    by_cases het : e.target = node_id
    · have hbeq : (e.target == node_id) = true := by simp [het]
      rw [hbeq, if_pos het]
      obtain ⟨out, hout⟩ := Option.isSome_iff_exists.mp (hpre e (by simp) het)
      rw [hout]
      simp only [if_true, List.foldl_cons]
      have hgd : (pdGet node_outputs e.source).getD [] = out := by rw [hout]; rfl
      rw [hgd]
      exact ih (pdUpdate acc out) (fun e2 he2 ht2 => hpre e2 (by simp [he2]) ht2)
    · have hbeq : (e.target == node_id) = false := by simp [het]
      rw [hbeq, if_neg het]
      simp only [Bool.false_eq_true, if_false]
      exact ih acc (fun e2 he2 ht2 => hpre e2 (by simp [he2]) ht2)

/-- C3: during a run in which every edge targeting a node has its source
output stored (the invariant `execute_workflow` maintains for executed
upstream nodes) and stored outputs are nonempty, the resolved input of the
node is exactly the spec's description: the merge, in edge-list order with
later edges overwriting earlier ones, of the stored outputs of its upstream
nodes, falling back to the run's global input when no edge targets it.  The
second conjunct states the overwrite semantics of the dict merge. -/
theorem resolve_node_inputs_matches_spec
    (node_outputs : PyDict (PyDict Value)) (node_id : String)
    (edges : List Edge) (input_data : PyDict Value)
    (h1 : ∀ e ∈ edges, e.target = node_id → (pdGet node_outputs e.source).isSome)
    (h2 : ∀ e ∈ edges, e.target = node_id →
      ((pdGet node_outputs e.source).getD []).isEmpty = false) :
    resolve_node_inputs node_outputs node_id edges input_data =
      spec_resolved_input node_outputs node_id edges input_data ∧
    (∀ (a b : PyDict Value), (pdKeys b).Nodup → ∀ k,
      pdGet (pdUpdate a b) k = (match pdGet b k with
        | some v => some v
        | Option.none => pdGet a k)) := by
  refine ⟨?_, fun a b hnd k => pdUpdate_get b a hnd k⟩
  unfold resolve_node_inputs spec_resolved_input
  rw [get_node_inputs_eq_filter_fold node_outputs node_id edges h1]
  cases hups : edges.filter (fun e => e.target == node_id) with
  | nil => simp
  | cons u rest =>
    have humem : ∀ e ∈ u :: rest, e ∈ edges ∧ e.target = node_id := by
      intro e he
      rw [← hups] at he
      have hf := List.mem_filter.mp he
      exact ⟨hf.1, by simpa using hf.2⟩
    have hd0 : (pdGet node_outputs u.source).getD [] ≠ [] := by
      intro hc
      have hh := h2 u (humem u (by simp)).1 (humem u (by simp)).2
      rw [hc] at hh
      simp at hh
    have hne : (u :: rest).foldl
        (fun acc2 e => pdUpdate acc2 ((pdGet node_outputs e.source).getD [])) [] ≠ [] := by
      simp only [List.foldl_cons]
      apply foldl_update_ne_nil
      cases hg : (pdGet node_outputs u.source).getD [] with
      | nil => exact absurd hg hd0
      | cons p tl =>
        exact pdUpdate_ne_nil_of_ne [] (p :: tl) (List.cons_ne_nil p tl)
    have hcond : ¬ ((u :: rest).foldl
        (fun acc2 e => pdUpdate acc2 ((pdGet node_outputs e.source).getD []))
          ([] : PyDict Value)).isEmpty = true := by
      rw [List.isEmpty_iff]
      exact hne
    rw [if_neg hcond, if_neg (by simp)]

theorem resolve_node_inputs_matches_spec_witness :
    resolve_node_inputs upOuts "n3" upEdges globalInput =
      spec_resolved_input upOuts "n3" upEdges globalInput :=
  (resolve_node_inputs_matches_spec upOuts "n3" upEdges globalInput
    (by decide) (by decide)).1

/-- C6 (counterexample to the claim as stated): a `file_operation` read of a
missing path raises (`Except.error`, the embedded re-raised
`FileNotFoundError`); it does not return an output-level failure value, so
the workflow run is aborted rather than continuing. -/
theorem file_read_missing_raises_counterexample :
    execute_file_operation emptyFs readMissingCfg =
      .error "[Errno 2] No such file or directory: \x27missing.txt\x27" ∧
    (execute_file_operation emptyFs readMissingCfg).toOption = Option.none := by
  constructor
  · rfl
  · rfl

/-- C6 (amended): reading a path whose content is unavailable makes
`execute_file_operation` raise the `FileNotFoundError` (logged and re-raised
by its `except` clause), which propagates and fails the workflow run; no
`{success: false}` output value is produced. -/
theorem file_read_missing_raises
    (fs : String → Option String) (config : PyDict Value) (p : String)
    (hop : (pdGet config "operation").getD (.str "read") = .str "read")
    (hpath : (pdGet config "filePath").getD (.str "") = .str p)
    (hp : p ≠ "")
    (hfs : fs p = Option.none) :
    execute_file_operation fs config =
      .error ("[Errno 2] No such file or directory: \x27" ++ p ++ "\x27") := by
  simp [execute_file_operation, hop, hpath, pyFalsy, hp, hfs]

theorem file_read_missing_raises_witness :
    execute_file_operation emptyFs readMissingCfg =
      .error "[Errno 2] No such file or directory: \x27missing.txt\x27" :=
  file_read_missing_raises emptyFs readMissingCfg "missing.txt" rfl rfl (by decide) rfl

/-- C7 (counterexample to the claim as stated): a `delay` node with the
negative configured duration -5 succeeds (`asyncio.sleep` accepts negative
durations, sleeping zero time) and returns its normal completion message;
no invalid-delay error exists in the code. -/
theorem delay_negative_succeeds_counterexample :
    execute_delay delayNegCfg = .ok (.str "Delayed for -5 seconds") ∧
    execute_delay delayNegCfg ≠ .error "InvalidDelayError" := by
  constructor
  · rfl
  · decide

/-- C7 (amended): for every integer configured duration, negative included,
`execute_delay` succeeds with the message "Delayed for {d} seconds"; the
suspension itself (zero time for non-positive durations) has no observable
effect in the pure model and the node never fails on numeric durations. -/
theorem execute_delay_int_always_ok (config : PyDict Value) (n : Int)
    (h : (pdGet config "delaySeconds").getD (.int 1) = .int n) :
    execute_delay config = .ok (.str ("Delayed for " ++ toString n ++ " seconds")) := by
  unfold execute_delay
  rw [h]

theorem execute_delay_int_always_ok_witness :
    execute_delay delayNegCfg = .ok (.str ("Delayed for " ++ toString (-5 : Int) ++ " seconds")) :=
  execute_delay_int_always_ok delayNegCfg (-5) rfl

/-- C8 (counterexample to the claim as stated): on
`[{a: 1, b: 2}, {a: 3, b: 4}]`, `format_as_table` emits a separator line of
dashes between the header row and the data rows, so the header is not
followed directly by the rows. -/
theorem format_table_counterexample :
    format_as_table tableExample = .ok "a | b\n------\n1 | 2\n3 | 4\n" ∧
    format_as_table tableExample ≠ .ok "a | b\n1 | 2\n3 | 4\n" := by
  constructor
  · decide
  · decide

/-- C8 (amended): executing an `output` node with format "table" on
`[{a: 1, b: 2}, {a: 3, b: 4}]` produces the header row "a | b", then a
separator line of dashes as long as the header line (newline included), then
the rows "1 | 2" and "3 | 4", each line newline-terminated; for any value
that is not a nonempty list whose first element is a mapping,
`format_as_table` falls back to plain string conversion. -/
theorem format_table_with_separator :
    (execute_output [("format", .str "table")] [("value", tableExample)] =
      .ok "a | b\n------\n1 | 2\n3 | 4\n") ∧
    (∀ v : Value, tableShape v = false → format_as_table v = .ok (pyStr v)) := by
  constructor
  · decide
  · intro v hv
    cases v with
    | list items =>
      cases items with
      | nil => rfl
      | cons hd tl =>
        cases hd with
        | dict d => simp [tableShape] at hv
        | str s => rfl
        | int n => rfl
        | bool b => rfl
        | list l => rfl
        | none => rfl
    | str s => rfl
    | int n => rfl
    | bool b => rfl
    | dict d => rfl
    | none => rfl

theorem format_table_with_separator_witness :
    execute_output [("format", Value.str "table")] [("value", tableExample)] =
      .ok "a | b\n------\n1 | 2\n3 | 4\n" ∧
    format_as_table (Value.int 5) = .ok (pyStr (Value.int 5)) :=
  ⟨format_table_with_separator.1, format_table_with_separator.2 (Value.int 5) rfl⟩
